import Mathlib

/-!
Verification of the grid/graph pathfinding and cellular-simulation core of
this repository against its specification.

The development shallowly embeds three source files:

* `src/solutions/year_2022/day_24.py` — the time-varying "blizzard valley"
  breadth-first search (`Valley`, `Blizzard`, `Valley.traverse`,
  `Valley._get_all_blizzard_states`, `part_one`, `part_two`);
* `src/solutions/year_2022/day_14.py` — the falling-sand settling simulation
  (`Cave`, `Grain.fall`, `Cave.tick`, `part_one`);
* `src/src/aoc/year_2021/day_11.py` — the cascading "octopus flash"
  simulation (`Octopus.flash`, `OctopusGrid.step`).

Python `while` loops and unbounded recursions are modelled with an explicit
fuel parameter; a `none`/`fuelOut` result means the fuel ran out before the
loop reached one of the source's `return` statements, so a run that loops
forever is the statement that every fuel amount yields `fuelOut`.  Machine
data is kept exact: coordinates are `Int` (Python integers may go negative
before a bounds test), cell values are `Nat` (the `Tile` IntEnum values and
the numpy cell values 0/1/2).
-/

namespace Day24

/-- `Position` from day_24.py: an immutable pair of integer coordinates. -/
structure Position where
  x : Int
  y : Int
deriving DecidableEq, Repr

/- The `Tile` IntEnum of day_24.py (numeric values as stored in the grid). -/
namespace Tile

def EMPTY : Nat := 0

def BLIZZARD : Nat := 1

def TEAM : Nat := 2

def WALL : Nat := 8

end Tile

/-- The `Direction` enum of day_24.py, in declaration order. -/
inductive Direction where
  | LEFT
  | TOP
  | RIGHT
  | BOTTOM
  | STAY
deriving DecidableEq, Repr

/-- The `Position` value attached to each `Direction` member. -/
def Direction.value : Direction → Position
  | .LEFT => ⟨-1, 0⟩
  | .TOP => ⟨0, -1⟩
  | .RIGHT => ⟨1, 0⟩
  | .BOTTOM => ⟨0, 1⟩
  | .STAY => ⟨0, 0⟩

/-- Iterating over the `Direction` enum yields its members in declaration
order; this list is that iteration order. -/
def directionList : List Direction := [.LEFT, .TOP, .RIGHT, .BOTTOM, .STAY]

/-- A valley grid: the contents of the numpy array `Valley._grid` (and of
the plotted states), row-major — entry `y` is row `y`, entry `x` of a row is
the numeric cell value at column `x`. -/
abbrev GridData : Type := List (List Nat)

/-- Read `g[y, x]` for indices already known to be in range (every grid read
below is guarded by a bounds check or by the movement invariants of the
theorems, matching the numpy accesses of the source, which are likewise only
performed in range). -/
def cellGet (g : GridData) (y x : Int) : Nat := (g.getD y.toNat []).getD x.toNat 0

/-- `Blizzard` from day_24.py: a direction plus a current position. -/
structure Blizzard where
  direction : Direction
  position : Position
deriving DecidableEq, Repr

/-- `Valley` construction data: dimensions, entrance, exit, and the list of
blizzards (day_24.py keeps the blizzard list as mutable state; here the
current list is passed explicitly and the field holds the list as of the
valley value). -/
structure Valley where
  width : Nat
  height : Nat
  entrance : Position
  exit : Position
  blizzards : List Blizzard
deriving DecidableEq, Repr

/-- Single-cell assignment `grid[y, x] = v`.  A negative index is truncated
to 0 and an index past the end leaves the grid unchanged — neither is
reached on the inputs considered here; numpy would wrap one negative step
and raise past the end, and `setCellE` below is the error-faithful model
used where such accesses matter. -/
def setCell (g : GridData) (y x : Int) (v : Nat) : GridData :=
  g.set y.toNat ((g.getD y.toNat []).set x.toNat v)

/-- The cell value at (y, x) of the grid built in `Valley.__init__`: interior
zeros padded with a ring of `WALL`, then the entrance and exit cells cleared
back to `EMPTY` (the later clearing wins over the wall ring, hence the
entrance/exit test comes first). -/
def Valley.baseCell (v : Valley) (y x : Int) : Nat :=
  if (x = v.entrance.x ∧ y = v.entrance.y) ∨ (x = v.exit.x ∧ y = v.exit.y) then
    Tile.EMPTY
  else if y = 0 ∨ y = (v.height : Int) - 1 ∨ x = 0 ∨ x = (v.width : Int) - 1 then
    Tile.WALL
  else Tile.EMPTY

/-- The grid built in `Valley.__init__`, tabulated row-major. -/
def Valley.baseGrid (v : Valley) : GridData :=
  (List.range v.height).map (fun y =>
    (List.range v.width).map (fun x => v.baseCell (Int.ofNat y) (Int.ofNat x)))

/-- numpy array indexing `on[y, x]` as used by `Blizzard.move`: a negative
index within one array extent addresses from the end (the move code reads
index -1 when a blizzard sits on row or column 0).  All accesses performed
under the hypotheses of the theorems below stay inside numpy's valid index
range; `npGetE` below is the error-faithful model used where out-of-range
accesses matter. -/
def npGet (v : Valley) (g : GridData) (y x : Int) : Nat :=
  cellGet g (if y < 0 then y + (v.height : Int) else y)
    (if x < 0 then x + (v.width : Int) else x)

/-- `Valley.plot_on_grid` for a given current blizzard list: copy the base
grid and set each blizzard's cell to `BLIZZARD`, in list order. -/
def Valley.plotOnGrid (v : Valley) (bs : List Blizzard) : GridData :=
  bs.foldl (fun g b => setCell g b.position.y b.position.x Tile.BLIZZARD) v.baseGrid

/-- `Blizzard.move`: step one cell in the blizzard's direction; if the target
cell of the grid (the `on` argument in Python, a reserved word here) holds a
`WALL`, wrap to the opposite interior edge. -/
def Blizzard.move (v : Valley) (onG : GridData) (b : Blizzard) : Blizzard :=
  let next : Position :=
    ⟨b.position.x + b.direction.value.x, b.position.y + b.direction.value.y⟩
  let next' : Position :=
    if npGet v onG next.y next.x = Tile.WALL then
      match b.direction with
      | .LEFT => ⟨(v.width : Int) - 2, b.position.y⟩
      | .RIGHT => ⟨1, b.position.y⟩
      | .TOP => ⟨b.position.x, (v.height : Int) - 2⟩
      | .BOTTOM => ⟨b.position.x, 1⟩
      | .STAY => next
    else next
  { b with position := next' }

/-- One round of `_get_all_blizzard_states`'s inner loop: every blizzard
moves once, all of them reading the grid plotted from the previous round's
positions (`states[state - 1]`). -/
def Valley.stepRound (v : Valley) (bs : List Blizzard) : List Blizzard :=
  let g := v.plotOnGrid bs
  bs.map (Blizzard.move v g)

/-- The blizzard list after `t` rounds of movement from the valley's initial
blizzards. -/
def Valley.blizzardsAt (v : Valley) (t : Nat) : List Blizzard :=
  (v.stepRound)^[t] v.blizzards

/-- The `n_states` local variable of `_get_all_blizzard_states`:
`lcm(width - 2, height - 2) - 1` (the dict then holds keys `0 .. n_states`). -/
def Valley.nStatesVar (v : Valley) : Nat := Nat.lcm (v.width - 2) (v.height - 2) - 1

/-- The precomputed blizzard states of `_get_all_blizzard_states`: entry `k`
is the grid plotted from the blizzards after `k` movement rounds, for
`k = 0 .. n_states`. -/
def Valley.statesList (v : Valley) : List GridData :=
  (List.range (v.nStatesVar + 1)).map (fun k => v.plotOnGrid (v.blizzardsAt k))

/-- `_get_all_blizzard_states` also mutates `self.blizzards`: after the call
the blizzards have moved `n_states` rounds.  The returned pair is (states,
valley with the mutated blizzard list). -/
def Valley.getAllBlizzardStates (v : Valley) : List GridData × Valley :=
  (v.statesList, { v with blizzards := v.blizzardsAt v.nStatesVar })

/-- Outcome of the BFS `while` loop in `Valley.traverse`: the
`return time - 1` exit (goal popped), the `return time` exit (queue empty),
or fuel exhaustion (the loop is still running). -/
inductive BfsResult where
  | found (t : Nat)
  | exhausted (t : Nat)
  | fuelOut
deriving DecidableEq, Repr

/-- Both `return` statements of the Python loop produce a plain integer;
only fuel exhaustion produces no value. -/
def BfsResult.value : BfsResult → Option Nat
  | .found t => some t
  | .exhausted t => some t
  | .fuelOut => none

/-- The candidate positions built in `Valley.traverse`: the current position
shifted by each direction's value, in `Direction` declaration order (the
`STAY` member makes waiting in place a candidate). -/
def neighboursOf (p : Position) : List Position :=
  directionList.map (fun d => ⟨p.x + d.value.x, p.y + d.value.y⟩)

/-- The neighbour filter of `Valley.traverse` at a given time index:
in-bounds and `EMPTY` in the precomputed state `time % n_states` (where
`n_states` there is `len(blizzard_states.keys())`, the list length).  The
filter is stated over an explicit states list so that it can be instantiated
both with `v.statesList` and with a pre-evaluated literal of it. -/
def validAtWith (width height : Nat) (states : List GridData) :
    Nat → Position → Bool := fun time q =>
  decide (0 ≤ q.x) && decide (q.x < (width : Int)) &&
  decide (0 ≤ q.y) && decide (q.y < (height : Int)) &&
  (cellGet (states.getD (time % states.length) []) q.y q.x == Tile.EMPTY)

/-- The neighbour filter of `Valley.traverse` on the valley's own
precomputed states. -/
def Valley.validAt (v : Valley) : Nat → Position → Bool :=
  validAtWith v.width v.height v.statesList

/-- `seen.add` plus `queue.append` for each valid neighbour not yet seen,
preserving append order.  The first component is `seen`, the second the
appended tail of the queue. -/
def pushNew : List Position → List Position → List Position → List Position × List Position
  | [], seen, acc => (seen, acc)
  | q :: qs, seen, acc =>
    if q ∈ seen then pushNew qs seen acc else pushNew qs (q :: seen) (acc ++ [q])

/-- One pass of `for _ in range(len(queue))`: pop positions left to right;
`none` means a popped position equalled `finish` (the `return time - 1`
branch fires), otherwise `some` of the queue contents for the next level. -/
def processLevel (finish : Position) (valid : Position → Bool) :
    List Position → List Position → List Position → Option (List Position)
  | [], _, acc => some acc
  | p :: rest, seen, acc =>
    if p = finish then none
    else
      let s := pushNew ((neighboursOf p).filter valid) seen acc
      processLevel finish valid rest s.1 s.2

/-- The `while queue:` loop of `Valley.traverse`.  Checked in source order:
an empty queue exits the loop with `return time`; otherwise the level at
`time + 1` is processed and either the goal was popped (`return time + 1 - 1`)
or the loop continues with the new queue. -/
def bfsLoop (validAt : Nat → Position → Bool) (finish : Position) :
    Nat → List Position → Nat → BfsResult
  | time, [], _ => .exhausted time
  | _, _ :: _, 0 => .fuelOut
  | time, p :: rest, fuel + 1 =>
    match processLevel finish (validAt (time + 1)) (p :: rest) [] [] with
    | none => .found (time + 1 - 1)
    | some q => bfsLoop validAt finish (time + 1) q fuel

/-- `Valley.traverse(start, finish, time)`: precompute the blizzard states
(mutating the valley's blizzard list), then run the BFS from queue
`[start]`.  Returns the loop outcome together with the mutated valley. -/
def Valley.traverse (v : Valley) (start finish : Position) (time : Nat) (fuel : Nat) :
    BfsResult × Valley :=
  let p := v.getAllBlizzardStates
  (bfsLoop (validAtWith v.width v.height p.1) finish time [start] fuel, p.2)

/-- `part_one`: traverse from the entrance to the exit at time 0 and return
the resulting time. -/
def partOne (v : Valley) (fuel : Nat) : Option Nat :=
  ((v.traverse v.entrance v.exit 0 fuel).1).value

/-- The `legs` list of `part_two`. -/
def Valley.legs (v : Valley) : List (Position × Position) :=
  [(v.entrance, v.exit), (v.exit, v.entrance), (v.entrance, v.exit)]

/-- The `for start, finish in legs:` loop of `part_two`: thread the time and
the (mutated) valley through successive `traverse` calls.  The result is the
final `time` and valley; `none` if some leg's BFS ran out of fuel. -/
def multiTrip (fuel : Nat) : Nat → Valley → List (Position × Position) → Option (Nat × Valley)
  | time, v, [] => some (time, v)
  | time, v, leg :: rest =>
    let r := v.traverse leg.1 leg.2 time fuel
    match (r.1).value with
    | none => none
    | some t => multiTrip fuel t r.2 rest

/-- `part_two`: run the three legs, then `return time - (len(legs) - 1)`
("Minus 1 for every turnaround"). -/
def partTwo (v : Valley) (fuel : Nat) : Option Nat :=
  (multiTrip fuel 0 v v.legs).map (fun r => r.1 - (v.legs.length - 1))

/-- `Position.is_valid(on)` from day_24.py: `False` off the grid, otherwise
whether the cell is `EMPTY`.  (The grid argument is named `on` in Python, a
reserved word here; its shape is `(height, width)`.) -/
def Position.is_valid (p : Position) (height width : Nat) (onG : GridData) : Bool :=
  if p.x < 0 ∨ p.x ≥ (width : Int) ∨ p.y < 0 ∨ p.y ≥ (height : Int) then false
  else cellGet onG p.y p.x == Tile.EMPTY

/-- The character-to-direction mapping of `Valley.from_text`. -/
def parseDirection (c : Char) : Option Direction :=
  if c = '<' then some .LEFT
  else if c = '>' then some .RIGHT
  else if c = '^' then some .TOP
  else if c = 'v' then some .BOTTOM
  else none

/-- The inner loop of `Valley.from_text`: scan `line[1:-1]` with x starting
at 1; '.' adds nothing, a blizzard character adds a blizzard, anything else
is the raised `Exception` (here `none`). -/
def parseCells (y : Nat) : Nat → List Char → Option (List Blizzard)
  | _, [] => some []
  | x, c :: cs =>
    if c = '.' then parseCells y (x + 1) cs
    else
      match parseDirection c with
      | none => none
      | some d => (parseCells y (x + 1) cs).map (fun bs => ⟨d, ⟨(x : Int), (y : Int)⟩⟩ :: bs)

/-- The outer loop of `Valley.from_text` over `input_lines[1:-1]`, y starting
at 1. -/
def parseAllRows : Nat → List (List Char) → Option (List Blizzard)
  | _, [] => some []
  | y, r :: rs =>
    match parseCells y 1 ((r.drop 1).dropLast) with
    | none => none
    | some bs => (parseAllRows (y + 1) rs).map (fun rest => bs ++ rest)

/-- `Valley.from_text` on pre-split rows of characters: width and height from
the input shape, entrance and exit at the '.' of the first and last rows
(`List.indexOf` matches `str.index` on these inputs, which contain one '.'),
blizzards parsed from the interior rows. -/
def fromRows (rows : List (List Char)) : Option Valley :=
  let width := (rows.headD []).length
  let height := rows.length
  let entrance : Position := ⟨(((rows.headD []).indexOf '.' : Nat) : Int), 0⟩
  let exitP : Position := ⟨(((rows.getLastD []).indexOf '.' : Nat) : Int), (height : Int) - 1⟩
  (parseAllRows 1 ((rows.drop 1).dropLast)).map
    (fun bs => ⟨width, height, entrance, exitP, bs⟩)

/-- The worked example board of tests/year_2022/test_day_24.py (the canonical
6×4-interior valley). -/
def canonRows : List (List Char) :=
  [ "#.######".toList,
    "#>>.<^<#".toList,
    "#.<..<<#".toList,
    "#>v.><>#".toList,
    "#<^v^^>#".toList,
    "######.#".toList ]

/-- A placeholder valley used only as the default of `Option.getD`. -/
def defaultValley : Valley := ⟨0, 0, ⟨0, 0⟩, ⟨0, 0⟩, []⟩

/-- The canonical example valley, parsed. -/
def canonValley : Valley := (fromRows canonRows).getD defaultValley

/-- Manhattan distance (scipy `cityblock`, used by the valley's distance
helpers and by the specification's lower-bound property). -/
def mdist (p q : Position) : Nat := (p.x - q.x).natAbs + (p.y - q.y).natAbs

/-- A time-stamped legal path for the traversal: the agent starts at `start`
at time `t0` on a cell that passes the traversal's own validity filter, and
each subsequent step moves by one of the five direction offsets (including
staying put) onto a cell that passes the filter at the arrival time.  This is
the replay judgment of the specification's BFS-minimality property. -/
inductive LegalReach (valid : Nat → Position → Bool) (start : Position) (t0 : Nat) :
    Position → Nat → Prop where
  | base (h : valid t0 start = true) : LegalReach valid start t0 start t0
  | step (p : Position) (t : Nat) (q : Position)
      (hp : LegalReach valid start t0 p t)
      (hq : q ∈ neighboursOf p)
      (hv : valid (t + 1) q = true) :
      LegalReach valid start t0 q (t + 1)

/-- An 8×6 valley whose interior row 3 is entirely filled with leftward
blizzards: that row is blocked at every time step, so the exit row is
unreachable from the entrance, while waiting at the entrance stays legal
forever.  Used for the unreachable-goal claims. -/
def blockedValley : Valley :=
  ⟨8, 6, ⟨1, 0⟩, ⟨6, 5⟩,
    [⟨.LEFT, ⟨1, 3⟩⟩, ⟨.LEFT, ⟨2, 3⟩⟩, ⟨.LEFT, ⟨3, 3⟩⟩,
     ⟨.LEFT, ⟨4, 3⟩⟩, ⟨.LEFT, ⟨5, 3⟩⟩, ⟨.LEFT, ⟨6, 3⟩⟩]⟩

/-- A 5×6 valley with an upward blizzard in the entrance column: the
entrance cell is not a `WALL`, so the blizzard walks through it (cycle
(1,3) → (1,2) → (1,1) → (1,0) → (1,4) of length 5 = innerHeight + 1) and the
blocked-cell pattern does not have period lcm(3, 4) = 12.  Used for the
periodicity claim. -/
def entranceColValley : Valley := ⟨5, 6, ⟨1, 0⟩, ⟨3, 5⟩, [⟨.TOP, ⟨1, 3⟩⟩]⟩

/-- A 5×5 valley whose single blizzard sits on (1,1) at time 0.  Traversing
from start (1,1) — a cell that is blocked at the start time — still succeeds,
because the BFS never tests the start cell's own occupancy.  Used for the
path-replay claim. -/
def occupiedStartValley : Valley := ⟨5, 5, ⟨1, 0⟩, ⟨3, 4⟩, [⟨.RIGHT, ⟨1, 1⟩⟩]⟩

/-- Leg 1 of the canonical `part_two` run (entrance → exit from time 0). -/
def canonLeg1 : BfsResult × Valley :=
  canonValley.traverse canonValley.entrance canonValley.exit 0 120

/-- Leg 2: exit → entrance, starting at leg 1's returned time 18, on the
valley whose blizzard list leg 1 mutated. -/
def canonLeg2 : BfsResult × Valley :=
  (canonLeg1.2).traverse canonValley.exit canonValley.entrance 18 120

/-- Leg 3: entrance → exit, starting at leg 2's returned time 42. -/
def canonLeg3 : BfsResult × Valley :=
  (canonLeg2.2).traverse canonValley.entrance canonValley.exit 42 120

/-- The period claimed by the specification:
`P = lcm(innerWidth, innerHeight)`. -/
def Valley.period (v : Valley) : Nat := Nat.lcm (v.width - 2) (v.height - 2)

/-- The purely arithmetical description of one blizzard move, used to relate
`Blizzard.move`'s grid lookup to modular arithmetic in the periodicity
proofs: the blizzard wraps exactly when its next cell would be the wall
ring. -/
def moveSpec (v : Valley) (b : Blizzard) : Blizzard :=
  match b.direction with
  | .LEFT =>
    ⟨.LEFT, if b.position.x - 1 = 0 then ⟨(v.width : Int) - 2, b.position.y⟩
      else ⟨b.position.x - 1, b.position.y⟩⟩
  | .RIGHT =>
    ⟨.RIGHT, if b.position.x + 1 = (v.width : Int) - 1 then ⟨1, b.position.y⟩
      else ⟨b.position.x + 1, b.position.y⟩⟩
  | .TOP =>
    ⟨.TOP, if b.position.y - 1 = 0 then ⟨b.position.x, (v.height : Int) - 2⟩
      else ⟨b.position.x, b.position.y - 1⟩⟩
  | .BOTTOM =>
    ⟨.BOTTOM, if b.position.y + 1 = (v.height : Int) - 1 then ⟨b.position.x, 1⟩
      else ⟨b.position.x, b.position.y + 1⟩⟩
  | .STAY => b

/-- A blizzard in the configuration the claimed periodicity needs: it sits
strictly inside the wall ring, and if it moves vertically its column is
neither the entrance column nor the exit column (otherwise it escapes
through the door cell, which is not a wall — see the counterexample). -/
def GoodBlizzard (v : Valley) (b : Blizzard) : Prop :=
  1 ≤ b.position.x ∧ b.position.x ≤ (v.width : Int) - 2 ∧
    1 ≤ b.position.y ∧ b.position.y ≤ (v.height : Int) - 2 ∧
    ((b.direction = .TOP ∨ b.direction = .BOTTOM) →
      b.position.x ≠ v.entrance.x ∧ b.position.x ≠ v.exit.x)

/-- A valley of the shape `from_text` builds (doors in the top and bottom
wall rows, interior at least 1×1) whose blizzards are all good. -/
def GoodValley (v : Valley) : Prop :=
  3 ≤ v.width ∧ 3 ≤ v.height ∧ v.entrance.y = 0 ∧ v.exit.y = (v.height : Int) - 1 ∧
    ∀ b ∈ v.blizzards, GoodBlizzard v b

/-- The shape invariant of the grids handled here: `height` rows of
`width` cells each. -/
def gridShaped (height width : Nat) (g : GridData) : Prop :=
  g.length = height ∧ ∀ row ∈ g, row.length = width

/-- Resolution of a numpy index against one array extent: an index in
`[0, dim)` is itself, an index in `[-dim, 0)` addresses from the end, and
any other index is an `IndexError`, modelled as `none`.  This is the
error-faithful counterpart of the single wrap in `npGet`, needed because
`_get_all_blizzard_states` performs its accesses with no bounds guard. -/
def npIdx (i : Int) (dim : Nat) : Option Nat :=
  if 0 ≤ i ∧ i < (dim : Int) then some i.toNat
  else if -(dim : Int) ≤ i ∧ i < 0 then some (i + (dim : Int)).toNat
  else none

/-- Error-faithful numpy read `on[y, x]`: `none` models the `IndexError`
numpy raises outside `[-extent, extent - 1]` on either axis. -/
def npGetE (g : GridData) (y x : Int) : Option Nat :=
  match npIdx y g.length with
  | none => none
  | some yi =>
    match npIdx x (g.getD yi []).length with
    | none => none
    | some xi => some ((g.getD yi []).getD xi 0)

/-- Error-faithful numpy assignment `grid[y, x] = v`: negative indices
within one extent address from the end, out-of-range indices are the
`IndexError` (`none`). -/
def setCellE (g : GridData) (y x : Int) (v : Nat) : Option GridData :=
  match npIdx y g.length with
  | none => none
  | some yi =>
    match npIdx x (g.getD yi []).length with
    | none => none
    | some xi => some (g.set yi ((g.getD yi []).set xi v))

/-- Error-faithful `Blizzard.move`: the read of the target cell uses numpy
indexing on the grid passed as `on` (`onG` here), so it is the `IndexError`
(`none`) when the target is outside the array; the wrap targets use the
grid's own shape (`on.shape[1] - 2`, `on.shape[0] - 2`), as in the
source. -/
def Blizzard.moveE (onG : GridData) (b : Blizzard) : Option Blizzard :=
  let next : Position :=
    ⟨b.position.x + b.direction.value.x, b.position.y + b.direction.value.y⟩
  match npGetE onG next.y next.x with
  | none => none
  | some c =>
    some { b with position :=
      if c = Tile.WALL then
        match b.direction with
        | .LEFT => ⟨Int.ofNat (onG.headD []).length - 2, b.position.y⟩
        | .RIGHT => ⟨1, b.position.y⟩
        | .TOP => ⟨b.position.x, Int.ofNat onG.length - 2⟩
        | .BOTTOM => ⟨b.position.x, 1⟩
        | .STAY => next
      else next }

/-- Error-faithful inner loop of `plot_on_grid`: each blizzard's cell is
assigned with numpy indexing, in list order, the first `IndexError`
propagating. -/
def plotCellsE : List Blizzard → GridData → Option GridData
  | [], g => some g
  | b :: bs, g =>
    match setCellE g b.position.y b.position.x Tile.BLIZZARD with
    | none => none
    | some g2 => plotCellsE bs g2

/-- Error-faithful `Valley.plot_on_grid` for a given current blizzard
list. -/
def Valley.plotOnGridE (v : Valley) (bs : List Blizzard) : Option GridData :=
  plotCellsE bs v.baseGrid

/-- Error-faithful `for blizzard in self.blizzards: blizzard.move(on=...)`:
every blizzard moves once, all of them reading the same previous plotted
grid; `none` propagates the first `IndexError`. -/
def moveAllE (onG : GridData) : List Blizzard → Option (List Blizzard)
  | [] => some []
  | b :: bs =>
    match Blizzard.moveE onG b with
    | none => none
    | some b2 =>
      match moveAllE onG bs with
      | none => none
      | some bs2 => some (b2 :: bs2)

/-- Error-faithful `for state in range(1, n_states + 1)` loop of
`_get_all_blizzard_states`: the plotted states of the movement rounds after
the initial one, together with the final blizzard list, or `none` at the
first `IndexError`. -/
def statesLoopE (v : Valley) : Nat → List Blizzard → GridData →
    Option (List GridData × List Blizzard)
  | 0, bs, _ => some ([], bs)
  | n + 1, bs, prev =>
    match moveAllE prev bs with
    | none => none
    | some bs2 =>
      match v.plotOnGridE bs2 with
      | none => none
      | some g =>
        match statesLoopE v n bs2 g with
        | none => none
        | some (rest, bsFinal) => some (g :: rest, bsFinal)

/-- Error-faithful `_get_all_blizzard_states`: `none` models the
`IndexError` the Python method raises when a blizzard move or plot indexes
outside the grid — possible on realizable valleys, because the door cells
are not walls, so a vertical blizzard in a door column walks off the
array.  On success: the states list and the valley with its mutated
blizzard list. -/
def Valley.getAllBlizzardStatesE (v : Valley) : Option (List GridData × Valley) :=
  match v.plotOnGridE v.blizzards with
  | none => none
  | some g0 =>
    match statesLoopE v v.nStatesVar v.blizzards g0 with
    | none => none
    | some (rest, bsFinal) => some (g0 :: rest, { v with blizzards := bsFinal })

/-- Error-faithful `Valley.traverse`: the state precompute runs before the
BFS loop, so its `IndexError` (`none`) aborts the call and no time is
returned; when it succeeds, the BFS is exactly `bfsLoop` on the computed
states. -/
def Valley.traverseE (v : Valley) (start finish : Position) (time fuel : Nat) :
    Option (BfsResult × Valley) :=
  match v.getAllBlizzardStatesE with
  | none => none
  | some p =>
    some (bfsLoop (validAtWith v.width v.height p.1) finish time [start] fuel, p.2)

/-- A 4×5 valley, realizable from text, with a downward blizzard in the
exit column: the blizzard walks through the exit door cell (`EMPTY`, not
`WALL`) and the fourth movement round of the precompute reads row index 5
of a 5-row array — the `IndexError` of `_get_all_blizzard_states`. -/
def exitColRows : List (List Char) :=
  [ "#.##".toList,
    "#.v#".toList,
    "#..#".toList,
    "#..#".toList,
    "##.#".toList ]

/-- The parsed exit-column counterexample valley. -/
def exitColValley : Valley := (fromRows exitColRows).getD defaultValley

end Day24

namespace Day14

/-- The cave grid: contents of the numpy array `Cave.grid`, row-major.  Cell
values: 0 empty, 1 rock, 2 sand. -/
abbrev Grid : Type := List (List Nat)

/-- Read `grid[y, x]` (all reads below are within the shape, as in the
source). -/
def gridGet (g : Grid) (y x : Nat) : Nat := (g.getD y []).getD x 0

/-- Write `grid[y, x] = v`. -/
def gridSet (g : Grid) (y x : Nat) (v : Nat) : Grid :=
  g.set y ((g.getD y []).set x v)

/-- `grid.shape[0]` (number of rows). -/
def rowsOf (g : Grid) : Nat := g.length

/-- `grid.shape[1]` (number of columns; rows all have equal length on the
grids built here). -/
def colsOf (g : Grid) : Nat := (g.headD []).length

/-- `np.zeros((height + 2, width * 2 + 1))` from `Cave.__init__`. -/
def mkGrid (width height : Nat) : Grid :=
  (List.range (height + 2)).map (fun _ => List.replicate (width * 2 + 1) 0)

/-- Draw one vertical rock segment: `grid[y, x] = 1` for
`y = top .. bottom`. -/
def drawVertical (g : Grid) (x top bottom : Nat) : Grid :=
  (List.range (bottom + 1 - top)).foldl (fun g' i => gridSet g' (top + i) x 1) g

/-- Draw one horizontal rock segment: `grid[y, x] = 1` for
`x = left .. right`. -/
def drawHorizontal (g : Grid) (y left right : Nat) : Grid :=
  (List.range (right + 1 - left)).foldl (fun g' i => gridSet g' y (left + i) 1) g

/-- `Cave.draw_rocks`: vertical segments when the x coordinates agree,
horizontal when the y coordinates agree, otherwise the raised `Exception`
(here `none`). -/
def drawRocks (g : Grid) : List ((Nat × Nat) × (Nat × Nat)) → Option Grid
  | [] => some g
  | (s, t) :: rest =>
    if s.1 = t.1 then drawRocks (drawVertical g s.1 (min s.2 t.2) (max s.2 t.2)) rest
    else if s.2 = t.2 then drawRocks (drawHorizontal g s.2 (min s.1 t.1) (max s.1 t.1)) rest
    else none

/-- `Cave`: the tick counter, the source position and the grid.  The shape
is read off the grid itself, as `self.grid.shape` is in the source. -/
structure Cave where
  ticks : Nat
  source : Nat × Nat
  grid : Grid
deriving DecidableEq, Repr

/-- `Cave.__init__` (with the default source (500, 0)): allocate the padded
grid and draw the rock segments. -/
def Cave.init (width height : Nat) (rocks : List ((Nat × Nat) × (Nat × Nat))) :
    Option Cave :=
  (drawRocks (mkGrid width height) rocks).map (fun g => ⟨0, (500, 0), g⟩)

/-- One test-and-move of `Grain.fall`'s `while True:` body, in the source's
priority order: straight down, then down-left (guarded by `x - 1 > 0`), then
down-right (guarded by `x + 1 < shape[1]`); `none` when no candidate move is
legal (the `break`). -/
def grainStep (g : Grid) (p : Nat × Nat) : Option (Nat × Nat) :=
  if p.2 + 1 < rowsOf g ∧ gridGet g (p.2 + 1) p.1 = 0 then
    some (p.1, p.2 + 1)
  else if p.2 + 1 < rowsOf g ∧ p.1 - 1 > 0 ∧ gridGet g (p.2 + 1) (p.1 - 1) = 0 then
    some (p.1 - 1, p.2 + 1)
  else if p.2 + 1 < rowsOf g ∧ p.1 + 1 < colsOf g ∧ gridGet g (p.2 + 1) (p.1 + 1) = 0 then
    some (p.1 + 1, p.2 + 1)
  else none

/-- `Grain.fall`: iterate `grainStep` until no move is legal.  Every legal
move increases y by one and requires `y + 1 < rowsOf g`, so fuel `rowsOf g`
always suffices (proved below); the fuel-out branch returns the current
position. -/
def grainFall (g : Grid) : Nat → Nat × Nat → Nat × Nat
  | 0, p => p
  | fuel + 1, p =>
    match grainStep g p with
    | none => p
    | some q => grainFall g fuel q

/-- `Cave.tick`: drop one grain from the source; if it settles on the source,
report overflow without drawing it; otherwise draw it (value 2), then report
overflow if the bottom row `grid[-1, :]` is neither all 0 nor all 1; else
advance the tick counter.  The returned Bool is the `did_overflow` result. -/
def Cave.tick (c : Cave) : Bool × Cave :=
  let p := grainFall c.grid (rowsOf c.grid) c.source
  if p = c.source then (true, c)
  else
    let g := gridSet c.grid p.2 p.1 2
    if ¬ ((g.getLastD []).all (fun v => v = 0)) ∧ ¬ ((g.getLastD []).all (fun v => v = 1)) then
      (true, { c with grid := g })
    else (false, { c with grid := g, ticks := c.ticks + 1 })

/-- The `while True:` loop of `part_one`: tick until overflow, then return
the tick counter. -/
def runUntilOverflow : Nat → Cave → Option Nat
  | 0, _ => none
  | fuel + 1, c =>
    let r := c.tick
    if r.1 then some r.2.ticks else runUntilOverflow fuel r.2

/-- `itertools.pairwise` over one input line's points. -/
def pairwiseSegs (ps : List (Nat × Nat)) : List ((Nat × Nat) × (Nat × Nat)) :=
  ps.zip ps.tail

/-- `Cave.from_text` on pre-split point lists (string parsing is out of
scope): collect consecutive-point segments, track the running maxima of the
segment endpoints' coordinates starting from 0, and build the cave with
`width = max_x`, `height = max_y`. -/
def fromPoints (pointLists : List (List (Nat × Nat))) : Option Cave :=
  let rocks := pointLists.foldl (fun acc ps => acc ++ pairwiseSegs ps) []
  let maxX := rocks.foldl (fun m s => max (max s.1.1 s.2.1) m) 0
  let maxY := rocks.foldl (fun m s => max (max s.1.2 s.2.2) m) 0
  Cave.init maxX maxY rocks

/-- `part_one` on pre-split point lists. -/
def partOne (pointLists : List (List (Nat × Nat))) (fuel : Nat) : Option Nat :=
  match fromPoints pointLists with
  | none => none
  | some c => runUntilOverflow fuel c

/-- The canonical small example's two rock paths
(`498,4 -> 498,6 -> 496,6` and `503,4 -> 502,4 -> 502,9 -> 494,9`). -/
def canonPoints : List (List (Nat × Nat)) :=
  [ [(498, 4), (498, 6), (496, 6)],
    [(503, 4), (502, 4), (502, 9), (494, 9)] ]

end Day14

namespace Day11

/-- The mutable per-octopus state of day_11.py, as three fields over (x, y)
coordinates: `energy_level`, `flashed`, and the per-octopus `n_flashes`
counter. -/
structure OState where
  energy : Int × Int → Nat
  flashed : Int × Int → Bool
  nflash : Int × Int → Nat

/-- The grid cells in Python iteration order
(`itertools.chain.from_iterable(self.state)`): rows outer, columns inner;
each cell is its (x, y) coordinate. -/
def allCells (w h : Nat) : List (Int × Int) :=
  (List.range h).flatMap (fun y => (List.range w).map (fun x => (Int.ofNat x, Int.ofNat y)))

/-- The neighbour offsets in the order of `Octopus.all_neighbours`:
left, right, top, bottom, top-left, top-right, bottom-left, bottom-right. -/
def neighbourOffsets : List (Int × Int) :=
  [(-1, 0), (1, 0), (0, -1), (0, 1), (-1, -1), (1, -1), (-1, 1), (1, 1)]

/-- `Octopus.get_neighbour`'s bounds test (None outside `0 .. w-1` ×
`0 .. h-1`). -/
def inGrid (w h : Nat) (c : Int × Int) : Bool :=
  decide (0 ≤ c.1) && decide (c.1 ≤ (w : Int) - 1) &&
  decide (0 ≤ c.2) && decide (c.2 ≤ (h : Int) - 1)

/-- `Octopus.all_neighbours`: the offset cells, with the out-of-grid ones
(the `None`s) filtered out. -/
def neighbours (w h : Nat) (c : Int × Int) : List (Int × Int) :=
  (neighbourOffsets.map (fun o => (c.1 + o.1, c.2 + o.2))).filter (inGrid w h)

/-- `neighbour.energy_level += 1`. -/
def incEnergy (s : OState) (c : Int × Int) : OState :=
  { s with energy := fun c' => if c' = c then s.energy c + 1 else s.energy c' }

/-- The first two lines of a real flash: `self.flashed = True;
self.n_flashes += 1`. -/
def markFlashed (s : OState) (c : Int × Int) : OState :=
  { s with
    flashed := fun c' => if c' = c then true else s.flashed c'
    nflash := fun c' => if c' = c then s.nflash c + 1 else s.nflash c' }

/-- `energy_level = 0; flashed = False` for one cell (the per-cell body of
the reset loop at the end of `step`). -/
def resetCell (s : OState) (c : Int × Int) : OState :=
  { s with
    energy := fun c' => if c' = c then 0 else s.energy c'
    flashed := fun c' => if c' = c then false else s.flashed c' }

/-- `Octopus.flash`: return unchanged if already flashed; otherwise mark the
flash and walk the neighbours in order, incrementing each and recursively
flashing it at once if its level exceeds 9.  The recursion is bounded by
fuel; fuel exceeding the number of unflashed cells is always enough (proved
below). -/
def flashF (w h : Nat) : Nat → Int × Int → OState → OState
  | 0, _, s => s
  | fuel + 1, c, s =>
    if s.flashed c then s
    else
      (neighbours w h c).foldl
        (fun t n =>
          let t1 := incEnergy t n
          if 9 < t1.energy n then flashF w h fuel n t1 else t1)
        (markFlashed s c)

/-- One `for octopus in ...: if energy > 9: flash()` pass of the `while`
loop in `OctopusGrid.step`. -/
def passAll (w h flashFuel : Nat) (s : OState) : OState :=
  (allCells w h).foldl
    (fun t c => if 9 < t.energy c then flashF w h flashFuel c t else t) s

/-- `len([octopus for octopus in ... if octopus.flashed])`. -/
def countFlashed (w h : Nat) (s : OState) : Nat :=
  ((allCells w h).filter (fun c => s.flashed c)).length

/-- The `while n_flashes_changed:` loop of `OctopusGrid.step`: run passes
until the flashed count stops changing; the fuel-out branch (`none`) is
never taken for fuel exceeding the cell count (proved below). -/
def flashLoop (w h flashFuel : Nat) : Nat → Nat → OState → Option OState
  | 0, _, _ => none
  | fuel + 1, n, s =>
    let s1 := passAll w h flashFuel s
    let n1 := countFlashed w h s1
    if n1 = n then some s1 else flashLoop w h flashFuel fuel n1 s1

/-- The `energy_level += 1` loop opening `OctopusGrid.step`. -/
def incAllCells (w h : Nat) (s : OState) : OState :=
  (allCells w h).foldl (fun t c => incEnergy t c) s

/-- The closing loop of `OctopusGrid.step`: every cell above 9 is reset to
energy 0 with its flag cleared. -/
def resetAll (w h : Nat) (s : OState) : OState :=
  (allCells w h).foldl (fun t c => if 9 < t.energy c then resetCell t c else t) s

/-- `OctopusGrid.step`: increment all, count the flashed flags, run trigger
passes to the fixed point, then reset.  Flash fuel `w*h + 1` and loop fuel
`w*h + 2` are sufficient for the loops to reach the source's own exits
(proved below). -/
def step (w h : Nat) (s : OState) : Option OState :=
  let s1 := incAllCells w h s
  (flashLoop w h (w * h + 1) (w * h + 2) (countFlashed w h s1) s1).map (resetAll w h)

/-- A fresh `OctopusGrid` from initial energy levels: flags false, counters
zero. -/
def initState (e : Int × Int → Nat) : OState := ⟨e, fun _ => false, fun _ => 0⟩

end Day11

/-!
## Theorems

The claims are settled below; helper lemmas are shared, and each claim's own
theorem, witness and counterexample are used nowhere else.
-/

namespace Day24

/-- C10 (amended claim): for every valley, every start-equals-finish call
and positive fuel, when the blizzard-state precompute completes without an
IndexError the traversal returns the time argument it was given unchanged
(the start node is popped in the first loop iteration, which runs at
`time + 1` and returns `time + 1 - 1`).  The condition is necessary: the
precompute runs before the BFS loop and raises on some realizable valleys
(see the counterexample). -/
theorem c10_traverse_self_returns_time_without_error (v : Valley) (p : Position)
    (t fuel : Nat) (hfuel : 1 ≤ fuel)
    (hok : v.getAllBlizzardStatesE.isSome = true) :
    (v.traverseE p p t fuel).map (fun r => (r.1).value) = some (some t) := by
  obtain ⟨s, hs⟩ := Option.isSome_iff_exists.mp hok
  obtain ⟨n, rfl⟩ : ∃ n, fuel = n + 1 := ⟨fuel - 1, by omega⟩
  unfold Valley.traverseE
  rw [hs]
  simp [bfsLoop, processLevel, BfsResult.value]

set_option maxHeartbeats 4000000 in
set_option maxRecDepth 8000 in
/-- C10 counterexample: on the realizable 4×5 valley whose exit column
holds a downward blizzard, the traversal with start = finish = the entrance
returns nothing for any fuel amount: the blizzard walks through the exit
door cell and the state precompute raises an IndexError (`none`) before the
BFS loop starts, so the given time is not returned. -/
theorem c10_counterexample :
    fromRows exitColRows = some exitColValley ∧
    exitColValley.getAllBlizzardStatesE = none ∧
    ∀ fuel : Nat, exitColValley.traverseE ⟨1, 0⟩ ⟨1, 0⟩ 0 fuel = none := by
  refine ⟨by decide, by decide, fun fuel => ?_⟩
  unfold Valley.traverseE
  rw [show exitColValley.getAllBlizzardStatesE = none from by decide]

set_option maxHeartbeats 10000000 in
set_option maxRecDepth 8000 in
/-- C10 witness: the canonical valley's precompute completes, and a
start-equals-finish traversal from the entrance at time 7 with fuel 1
returns 7. -/
theorem c10_witness :
    1 ≤ 1 ∧ canonValley.getAllBlizzardStatesE.isSome = true ∧
      (canonValley.traverseE ⟨1, 0⟩ ⟨1, 0⟩ 7 1).map (fun r => (r.1).value) =
        some (some 7) :=
  ⟨Nat.le_refl 1, by decide,
    c10_traverse_self_returns_time_without_error canonValley ⟨1, 0⟩ 7 1
      (Nat.le_refl 1) (by decide)⟩

set_option maxHeartbeats 10000000 in
set_option maxRecDepth 8000 in
/-- C5: on the canonical 6×4-interior valley example, the single-leg
traversal (`part_one`) returns 18 and the three-leg round trip (`part_two`)
returns 54. -/
theorem c5_canonical_example_values :
    partOne canonValley 40 = some 18 ∧ partTwo canonValley 120 = some 54 := by
  constructor
  · decide
  · decide

end Day24

namespace Day14

set_option maxHeartbeats 10000000 in
set_option maxRecDepth 8000 in
/-- C9: on the canonical settling example (point source at (500, 0) above
the two rock paths), the simulation completes 24 ticks before reporting
overflow. -/
theorem c9_canonical_settles_24 : partOne canonPoints 50 = some 24 := by
  decide

end Day14

namespace Day24

/-- Both integer-returning exits of the BFS loop return at least the time
the loop was entered with (each iteration only increments `time`). -/
theorem bfsLoop_value_ge (validAt : Nat → Position → Bool) (finish : Position) :
    ∀ fuel time queue t, (bfsLoop validAt finish time queue fuel).value = some t →
      time ≤ t := by
  intro fuel
  induction fuel with
  | zero =>
    intro time queue t h
    cases queue with
    | nil => simp [bfsLoop, BfsResult.value] at h; omega
    | cons a l => simp [bfsLoop, BfsResult.value] at h
  | succ fuel ih =>
    intro time queue t h
    cases queue with
    | nil => simp [bfsLoop, BfsResult.value] at h; omega
    | cons a l =>
      rw [bfsLoop] at h
      cases hpl : processLevel finish (validAt (time + 1)) (a :: l) [] [] with
      | none => rw [hpl] at h; simp [BfsResult.value] at h; omega
      | some q =>
        rw [hpl] at h
        have := ih (time + 1) q t h
        omega

/-- C1 (amended): when the three legs of `part_two` run to completion, each
leg starting at the previous leg's returned time, the value returned by
`part_two` is the sum of the individual leg durations minus
`len(legs) - 1`, i.e. minus one per turnaround — not the plain sum. -/
theorem c1_total_is_sum_minus_turnarounds
    (v : Valley) (fuel : Nat) (r1 r2 r3 : BfsResult) (v1 v2 v3 : Valley) (t1 t2 t3 : Nat)
    (e1 : v.traverse v.entrance v.exit 0 fuel = (r1, v1)) (h1 : r1.value = some t1)
    (e2 : v1.traverse v.exit v.entrance t1 fuel = (r2, v2)) (h2 : r2.value = some t2)
    (e3 : v2.traverse v.entrance v.exit t2 fuel = (r3, v3)) (h3 : r3.value = some t3) :
    partTwo v fuel = some (t3 - (v.legs.length - 1)) ∧
      (t1 - 0) + ((t2 - t1) + (t3 - t2)) = t3 := by
  have m2 : t1 ≤ t2 := by
    have hv : ((v1.traverse v.exit v.entrance t1 fuel).1).value = some t2 := by
      rw [e2]; exact h2
    simp only [Valley.traverse] at hv
    exact bfsLoop_value_ge _ _ fuel t1 _ t2 hv
  have m3 : t2 ≤ t3 := by
    have hv : ((v2.traverse v.entrance v.exit t2 fuel).1).value = some t3 := by
      rw [e3]; exact h3
    simp only [Valley.traverse] at hv
    exact bfsLoop_value_ge _ _ fuel t2 _ t3 hv
  constructor
  · simp [partTwo, multiTrip, Valley.legs, e1, h1, e2, h2, e3, h3]
  · omega

set_option maxHeartbeats 16000000 in
set_option maxRecDepth 8000 in
/-- C1 (counterexample): on the canonical example the three chained legs
end at times 18, 42 and 56 — leg durations 18, 24 and 14, which sum to 56 —
but `part_two` returns 54, not the sum of the leg durations: two turnaround
ticks are subtracted. -/
theorem c1_counterexample :
    canonLeg1.1 = .found 18 ∧ canonLeg2.1 = .found 42 ∧ canonLeg3.1 = .found 56 ∧
      partTwo canonValley 120 = some 54 ∧
      (18 - 0) + ((42 - 18) + (56 - 42)) ≠ (54 : Nat) := by
  refine ⟨by decide, by decide, by decide, by decide, by decide⟩

set_option maxHeartbeats 16000000 in
set_option maxRecDepth 8000 in
/-- Witness for C1's amended theorem at the canonical example: legs ending
at 18, 42, 56 give `part_two = 56 - (3 - 1)` and the durations telescope
to 56. -/
theorem c1_witness :
    partTwo canonValley 120 = some (56 - (canonValley.legs.length - 1)) ∧
      (18 - 0) + ((42 - 18) + (56 - 42)) = 56 :=
  c1_total_is_sum_minus_turnarounds canonValley 120 canonLeg1.1 canonLeg2.1 canonLeg3.1
    canonLeg1.2 canonLeg2.2 canonLeg3.2 18 42 56 rfl (by decide) rfl (by decide) rfl
    (by decide)

end Day24

namespace Day24

/-- Positions already in the queue tail stay there when further neighbours
are pushed. -/
theorem pushNew_acc_mem (ns : List Position) :
    ∀ seen acc x, x ∈ acc → x ∈ (pushNew ns seen acc).2 := by
  induction ns with
  | nil => intro seen acc x hx; simpa [pushNew] using hx
  | cons q qs ih =>
    intro seen acc x hx
    rw [pushNew]
    split
    · exact ih seen acc x hx
    · exact ih (q :: seen) (acc ++ [q]) x (List.mem_append_left _ hx)

/-- Everything `pushNew` puts into the queue tail came from the old tail or
from the pushed neighbour list. -/
theorem pushNew_sound (ns : List Position) :
    ∀ seen acc x, x ∈ (pushNew ns seen acc).2 → x ∈ acc ∨ x ∈ ns := by
  induction ns with
  | nil => intro seen acc x hx; simp [pushNew] at hx; exact Or.inl hx
  | cons q qs ih =>
    intro seen acc x hx
    rw [pushNew] at hx
    split at hx
    · rcases ih _ _ _ hx with h | h
      · exact Or.inl h
      · exact Or.inr (List.mem_cons_of_mem _ h)
    · rcases ih _ _ _ hx with h | h
      · rcases List.mem_append.mp h with h' | h'
        · exact Or.inl h'
        · simp at h'; subst h'; exact Or.inr (List.mem_cons_self _ _)
      · exact Or.inr (List.mem_cons_of_mem _ h)

/-- `pushNew` keeps the seen set inside the queue tail (given it starts that
way). -/
theorem pushNew_seen_sub (ns : List Position) :
    ∀ seen acc, (∀ x ∈ seen, x ∈ acc) →
      ∀ x ∈ (pushNew ns seen acc).1, x ∈ (pushNew ns seen acc).2 := by
  induction ns with
  | nil => intro seen acc hsub x hx; simp [pushNew] at hx ⊢; exact hsub x hx
  | cons q qs ih =>
    intro seen acc hsub
    rw [pushNew]
    split
    · exact ih seen acc hsub
    · refine ih (q :: seen) (acc ++ [q]) ?_
      intro x hx
      rcases List.mem_cons.mp hx with h | h
      · subst h; exact List.mem_append_right _ (List.mem_singleton.mpr rfl)
      · exact List.mem_append_left _ (hsub x h)

/-- Every pushed neighbour ends up in the queue tail (seen neighbours are
already there). -/
theorem pushNew_covers (ns : List Position) :
    ∀ seen acc, (∀ x ∈ seen, x ∈ acc) → ∀ q ∈ ns, q ∈ (pushNew ns seen acc).2 := by
  induction ns with
  | nil => intro seen acc hsub q hq; simp at hq
  | cons n nsl ih =>
    intro seen acc hsub q hq
    rw [pushNew]
    rcases List.mem_cons.mp hq with h | h
    · subst h
      split
      · next hmem => exact pushNew_acc_mem _ _ _ _ (hsub _ hmem)
      · exact pushNew_acc_mem _ _ _ _ (List.mem_append_right _ (List.mem_singleton.mpr rfl))
    · split
      · exact ih seen acc hsub q h
      · refine ih (n :: seen) (acc ++ [n]) ?_ q h
        intro x hx
        rcases List.mem_cons.mp hx with h' | h'
        · subst h'; exact List.mem_append_right _ (List.mem_singleton.mpr rfl)
        · exact List.mem_append_left _ (hsub x h')

/-- The level pass returns `none` exactly when the finish position is among
the popped queue entries. -/
theorem processLevel_none_iff (f : Position) (valid : Position → Bool) :
    ∀ queue seen acc, processLevel f valid queue seen acc = none ↔ f ∈ queue := by
  intro queue
  induction queue with
  | nil => intro seen acc; simp [processLevel]
  | cons p rest ih =>
    intro seen acc
    rw [processLevel]
    by_cases hpf : p = f
    · simp [hpf]
    · simp only [if_neg hpf]
      rw [ih]
      constructor
      · exact fun h => List.mem_cons_of_mem _ h
      · intro h
        rcases List.mem_cons.mp h with h' | h'
        · exact absurd h'.symm hpf
        · exact h'

/-- Queue-tail monotonicity through a whole level pass. -/
theorem processLevel_acc_mono (f : Position) (valid : Position → Bool) :
    ∀ queue seen acc acc', processLevel f valid queue seen acc = some acc' →
      ∀ x ∈ acc, x ∈ acc' := by
  intro queue
  induction queue with
  | nil => intro seen acc acc' h x hx; simp [processLevel] at h; subst h; exact hx
  | cons p rest ih =>
    intro seen acc acc' h x hx
    rw [processLevel] at h
    split at h
    · exact absurd h (by simp)
    · exact ih _ _ _ h x (pushNew_acc_mem _ _ _ _ hx)

/-- Everything in the next level's queue is a filtered neighbour of some
popped position (when the initial tail is empty, which is how the loop calls
it). -/
theorem processLevel_sound (f : Position) (valid : Position → Bool) :
    ∀ queue seen acc acc', processLevel f valid queue seen acc = some acc' →
      ∀ x ∈ acc', x ∈ acc ∨ ∃ p ∈ queue, x ∈ (neighboursOf p).filter valid := by
  intro queue
  induction queue with
  | nil =>
    intro seen acc acc' h x hx
    simp [processLevel] at h; subst h; exact Or.inl hx
  | cons p rest ih =>
    intro seen acc acc' h x hx
    rw [processLevel] at h
    split at h
    · exact absurd h (by simp)
    · rcases ih _ _ _ h x hx with h' | ⟨p', hp', hx'⟩
      · rcases pushNew_sound _ _ _ _ h' with h'' | h''
        · exact Or.inl h''
        · exact Or.inr ⟨p, List.mem_cons_self _ _, h''⟩
      · exact Or.inr ⟨p', List.mem_cons_of_mem _ hp', hx'⟩

/-- Completeness of a level pass: if the finish is not popped, every valid
filtered neighbour of every popped position reaches the next level's
queue. -/
theorem processLevel_covers (f : Position) (valid : Position → Bool) :
    ∀ queue seen acc acc', processLevel f valid queue seen acc = some acc' →
      (∀ x ∈ seen, x ∈ acc) →
      ∀ p ∈ queue, ∀ q ∈ (neighboursOf p).filter valid, q ∈ acc' := by
  intro queue
  induction queue with
  | nil => intro seen acc acc' h hsub p hp; simp at hp
  | cons hd rest ih =>
    intro seen acc acc' h hsub p hp q hq
    rw [processLevel] at h
    split at h
    · exact absurd h (by simp)
    · rcases List.mem_cons.mp hp with h' | h'
      · subst h'
        exact processLevel_acc_mono _ _ _ _ _ _ h q (pushNew_covers _ _ _ hsub q hq)
      · exact ih _ _ _ h (pushNew_seen_sub _ _ _ hsub) p h' q hq

/-- A position accepted by the traversal's filter is inside the valley's
bounds. -/
theorem validAt_true_bounds (v : Valley) (t : Nat) (q : Position)
    (h : v.validAt t q = true) :
    0 ≤ q.x ∧ q.x < (v.width : Int) ∧ 0 ≤ q.y ∧ q.y < (v.height : Int) := by
  unfold Valley.validAt validAtWith at h
  simp only [Bool.and_eq_true, decide_eq_true_eq] at h
  exact ⟨h.1.1.1.1, h.1.1.1.2, h.1.1.2, h.1.2⟩

/-- A candidate neighbour moves the row index by at most one downwards. -/
theorem neighboursOf_y_le (q p : Position) (h : q ∈ neighboursOf p) : q.y ≤ p.y + 1 := by
  simp only [neighboursOf, directionList, List.map_cons, List.map_nil, List.mem_cons,
    List.not_mem_nil, or_false] at h
  rcases h with h | h | h | h | h <;> subst h <;> simp [Direction.value]

end Day24

namespace Day24

/-- The BFS outcome of `traverse` is the loop run on the valley's own
filter (the states list passed to the loop is the one `validAt` reads). -/
theorem traverse_fst (v : Valley) (s f : Position) (t fuel : Nat) :
    (v.traverse s f t fuel).1 = bfsLoop v.validAt f t [s] fuel := rfl

/-- In the blocked valley, every cell of row 3 fails the traversal filter at
every precomputed state index (the row is wall at both ends and filled by
the rotating leftward blizzards in between). -/
theorem blocked_row3_closed :
    ∀ k : Nat, k < 12 → ∀ xx : Nat, xx < 8 →
      blockedValley.validAt k ⟨(xx : Int), 3⟩ = false := by decide

/-- In the blocked valley, the entrance cell passes the filter at every
precomputed state index. -/
theorem blocked_entrance_closed :
    ∀ k : Nat, k < 12 → blockedValley.validAt k ⟨1, 0⟩ = true := by decide

/-- The blocked valley precomputes lcm(6, 4) = 12 states. -/
theorem blocked_states_len : blockedValley.statesList.length = 12 := by decide

/-- The filter of the blocked valley only depends on the time modulo 12. -/
theorem blocked_validAt_mod (t : Nat) (q : Position) :
    blockedValley.validAt t q = blockedValley.validAt (t % 12) q := by
  unfold Valley.validAt validAtWith
  rw [blocked_states_len]
  have h12 : t % 12 % 12 = t % 12 := by omega
  rw [h12]

/-- Row 3 of the blocked valley fails the filter at every time. -/
theorem blocked_row3 (t : Nat) (x : Int) (h0 : 0 ≤ x) (h8 : x < 8) :
    blockedValley.validAt t ⟨x, 3⟩ = false := by
  rw [blocked_validAt_mod]
  have hx : x = ((x.toNat : Nat) : Int) := (Int.toNat_of_nonneg h0).symm
  rw [hx]
  exact blocked_row3_closed (t % 12) (Nat.mod_lt t (by norm_num)) x.toNat (by omega)

/-- The entrance of the blocked valley passes the filter at every time. -/
theorem blocked_entrance (t : Nat) : blockedValley.validAt t ⟨1, 0⟩ = true := by
  rw [blocked_validAt_mod]
  exact blocked_entrance_closed (t % 12) (Nat.mod_lt t (by norm_num))

/-- In the blocked valley the BFS loop runs out of any amount of fuel: the
frontier always keeps the entrance (waiting there is always legal), never
reaches past row 2 (row 3 is permanently blocked), and hence never pops the
exit and never empties. -/
theorem blocked_bfs_fuelOut :
    ∀ fuel time queue, queue ≠ [] → blockedValley.entrance ∈ queue →
      (∀ p ∈ queue, p.y ≤ 2) →
      bfsLoop blockedValley.validAt blockedValley.exit time queue fuel = .fuelOut := by
  intro fuel
  induction fuel with
  | zero =>
    intro time queue hne hmem hy
    cases queue with
    | nil => exact absurd rfl hne
    | cons a l => rw [bfsLoop]
  | succ fuel ih =>
    intro time queue hne hmem hy
    cases queue with
    | nil => exact absurd rfl hne
    | cons a l =>
      rw [bfsLoop]
      have hnf : blockedValley.exit ∉ (a :: l) := by
        intro hmem'
        have h5 := hy _ hmem'
        simp [blockedValley] at h5
      cases hpl : processLevel blockedValley.exit (blockedValley.validAt (time + 1))
          (a :: l) [] [] with
      | none => exact absurd ((processLevel_none_iff _ _ _ _ _).mp hpl) hnf
      | some q =>
        have hq_y : ∀ x ∈ q, x.y ≤ 2 := by
          intro x hx
          rcases processLevel_sound _ _ _ _ _ _ hpl x hx with hx0 | ⟨p, hp, hxn⟩
          · simp at hx0
          · rw [List.mem_filter] at hxn
            obtain ⟨hnb, hval⟩ := hxn
            obtain ⟨hx0, hx8, _, _⟩ := validAt_true_bounds _ _ _ hval
            have hy3 : x.y ≤ p.y + 1 := neighboursOf_y_le _ _ hnb
            have hple := hy p hp
            by_contra hgt
            have hxy : x.y = 3 := by omega
            have hfalse := blocked_row3 (time + 1) x.x hx0 (by exact_mod_cast hx8)
            have hxeq : (⟨x.x, (3 : Int)⟩ : Position) = x := by
              cases x with
              | mk xx yy => simp_all
            rw [hxeq, hval] at hfalse
            exact Bool.true_eq_false.mp hfalse
        have hq_mem : blockedValley.entrance ∈ q := by
          refine processLevel_covers _ _ _ _ _ _ hpl (by simp) _ hmem
            blockedValley.entrance ?_
          rw [List.mem_filter]
          refine ⟨by decide, ?_⟩
          exact blocked_entrance (time + 1)
        have hq_ne : q ≠ [] := by
          intro h0
          rw [h0] at hq_mem
          simp at hq_mem
        exact ih (time + 1) q hq_ne hq_mem hq_y

set_option maxHeartbeats 2000000 in
/-- C2 (amended): on a valley whose goal is permanently cut off (row 3 is
blocked at every time step), `traverse` never terminates: for every amount
of fuel the BFS loop is still running — no `UnreachableError` (no such
error exists in the code) and no returned number. -/
theorem c2_unreachable_loops_forever (fuel : Nat) :
    (blockedValley.traverse blockedValley.entrance blockedValley.exit 0 fuel).1 =
      .fuelOut := by
  rw [traverse_fst]
  exact blocked_bfs_fuelOut fuel 0 [blockedValley.entrance] (by simp) (by simp) (by decide)

set_option maxHeartbeats 2000000 in
/-- C2 (counterexample): with the step budget 800 — exceeding the claimed
bound `period × boundSize = 12 × 48 = 576` — the search on the blocked
valley has neither raised anything nor returned a number: it is still
looping. -/
theorem c2_counterexample :
    (blockedValley.traverse blockedValley.entrance blockedValley.exit 0 800).1 =
      .fuelOut := by
  rw [traverse_fst]
  exact blocked_bfs_fuelOut 800 0 [blockedValley.entrance] (by simp) (by simp) (by decide)

end Day24

namespace Day24

/-- Manhattan distance to oneself is zero. -/
theorem mdist_self (p : Position) : mdist p p = 0 := by
  simp [mdist]

/-- Manhattan distance from a shifted position. -/
theorem mdist_shift (p : Position) (a b : Int) :
    mdist p ⟨p.x + a, p.y + b⟩ = a.natAbs + b.natAbs := by
  unfold mdist
  have hx : p.x - (p.x + a) = -a := by ring
  have hy : p.y - (p.y + b) = -b := by ring
  rw [hx, hy, Int.natAbs_neg, Int.natAbs_neg]

/-- Manhattan distance satisfies the triangle inequality. -/
theorem mdist_triangle (s p q : Position) : mdist s q ≤ mdist s p + mdist p q := by
  unfold mdist
  have hx : s.x - q.x = (s.x - p.x) + (p.x - q.x) := by ring
  have hy : s.y - q.y = (s.y - p.y) + (p.y - q.y) := by ring
  rw [hx, hy]
  have h1 := Int.natAbs_add_le (s.x - p.x) (p.x - q.x)
  have h2 := Int.natAbs_add_le (s.y - p.y) (p.y - q.y)
  omega

/-- Each candidate move covers at most one unit of Manhattan distance. -/
theorem mdist_neighbour (p q : Position) (h : q ∈ neighboursOf p) : mdist p q ≤ 1 := by
  simp only [neighboursOf, directionList, List.map_cons, List.map_nil, List.mem_cons,
    List.not_mem_nil, or_false] at h
  rcases h with h | h | h | h | h <;> subst h <;> rw [mdist_shift] <;> decide

/-- A legal path of the traversal uses at least as many ticks as the
Manhattan distance it covers. -/
theorem LegalReach_mdist (valid : Nat → Position → Bool) (start : Position) (t0 : Nat) :
    ∀ p t, LegalReach valid start t0 p t → t0 + mdist start p ≤ t := by
  intro p t h
  induction h with
  | base _ => simp [mdist_self]
  | step p t q hp hq hv ih =>
    have h1 := mdist_triangle start p q
    have h2 := mdist_neighbour p q hq
    omega

/-- Any legal path certifies that its own start cell passed the filter at
the start time. -/
theorem LegalReach_start_open (valid : Nat → Position → Bool) (start : Position)
    (t0 : Nat) : ∀ p t, LegalReach valid start t0 p t → valid t0 start = true := by
  intro p t h
  induction h with
  | base h => exact h
  | step _ _ _ _ _ _ ih => exact ih

/-- Soundness of the BFS loop: when it reports `found r`, the finish is the
endpoint of a legal path arriving at time `r`, provided every queued
position already is such an endpoint at the current level time. -/
theorem bfs_found_legalReach (valid : Nat → Position → Bool) (start finish : Position)
    (t0 : Nat) :
    ∀ fuel time queue r, (∀ p ∈ queue, LegalReach valid start t0 p time) →
      bfsLoop valid finish time queue fuel = .found r →
      LegalReach valid start t0 finish r := by
  intro fuel
  induction fuel with
  | zero =>
    intro time queue r hq h
    cases queue with
    | nil => simp [bfsLoop] at h
    | cons a l => simp [bfsLoop] at h
  | succ fuel ih =>
    intro time queue r hq h
    cases queue with
    | nil => simp [bfsLoop] at h
    | cons a l =>
      rw [bfsLoop] at h
      cases hpl : processLevel finish (valid (time + 1)) (a :: l) [] [] with
      | none =>
        rw [hpl] at h
        simp at h
        have hf : finish ∈ (a :: l) := (processLevel_none_iff _ _ _ _ _).mp hpl
        have := hq finish hf
        rwa [h] at this
      | some q =>
        rw [hpl] at h
        have h' : bfsLoop valid finish (time + 1) q fuel = .found r := h
        refine ih (time + 1) q r ?_ h'
        intro p hp
        rcases processLevel_sound _ _ _ _ _ _ hpl p hp with h0 | ⟨p', hp', hpn⟩
        · simp at h0
        · rw [List.mem_filter] at hpn
          exact .step p' time p (hq p' hp') hpn.1 hpn.2

/-- C4 (amended): whenever the traversal reports `found r` and the start
cell itself passes the filter at the start time, the elapsed time
`r - t0` is at least the Manhattan distance from start to finish, and `r`
is realized by a step-by-step path (direction moves plus staying in place)
that passes the traversal's own filter at every time it occupies a cell. -/
theorem c4_found_implies_bound_and_path (v : Valley) (s f : Position)
    (t0 fuel r : Nat)
    (hfound : (v.traverse s f t0 fuel).1 = .found r)
    (hopen : v.validAt t0 s = true) :
    t0 + mdist s f ≤ r ∧ LegalReach v.validAt s t0 f r := by
  rw [traverse_fst] at hfound
  have hreach : LegalReach v.validAt s t0 f r := by
    refine bfs_found_legalReach v.validAt s f t0 fuel t0 [s] r ?_ hfound
    intro p hp
    rw [List.mem_singleton] at hp
    subst hp
    exact .base hopen
  exact ⟨LegalReach_mdist _ _ _ _ _ hreach, hreach⟩

set_option maxHeartbeats 2000000 in
/-- C4 (counterexample): starting on a cell occupied by a blizzard at the
start time, the traversal still reports `found 1`, but no fully legal path
(one that never occupies a blocked cell at the time it occupies it,
including the start cell at the start time) exists to the found position. -/
theorem c4_counterexample :
    (occupiedStartValley.traverse ⟨1, 1⟩ ⟨1, 2⟩ 0 10).1 = .found 1 ∧
      ¬ LegalReach occupiedStartValley.validAt ⟨1, 1⟩ 0 ⟨1, 2⟩ 1 := by
  constructor
  · decide
  · intro h
    have hopen := LegalReach_start_open _ _ _ _ _ h
    have hfalse : occupiedStartValley.validAt 0 ⟨1, 1⟩ = false := by decide
    rw [hopen] at hfalse
    exact Bool.true_eq_false.mp hfalse

set_option maxHeartbeats 4000000 in
set_option maxRecDepth 8000 in
/-- Witness for C4's amended theorem: on the canonical valley the found
value 18 is at least the Manhattan distance from entrance to exit, and is
realized by a fully legal path. -/
theorem c4_witness :
    0 + mdist canonValley.entrance canonValley.exit ≤ 18 ∧
      LegalReach canonValley.validAt canonValley.entrance 0 canonValley.exit 18 :=
  c4_found_implies_bound_and_path canonValley canonValley.entrance canonValley.exit 0 40
    18 (by decide) (by decide)

end Day24

namespace Day14

/-- Any successful candidate move goes exactly one row down, stays inside
the row bound, and keeps the column inside the column bound. -/
theorem grainStep_some (g : Grid) (p q : Nat × Nat) (h : grainStep g p = some q) :
    q.2 = p.2 + 1 ∧ q.2 < rowsOf g ∧ (p.1 < colsOf g → q.1 < colsOf g) := by
  unfold grainStep at h
  split_ifs at h with h1 h2 h3
  · obtain ⟨hrow, -⟩ := h1
    cases h
    exact ⟨rfl, by omega, fun hx => hx⟩
  · obtain ⟨hrow, -, -⟩ := h2
    cases h
    refine ⟨rfl, by omega, fun hx => ?_⟩
    show p.1 - 1 < colsOf g
    omega
  · obtain ⟨hrow, hcol, -⟩ := h3
    cases h
    exact ⟨rfl, by omega, fun _ => hcol⟩

/-- Once the grain's row passes the row bound, no candidate move is legal. -/
theorem grainStep_none_of_low (g : Grid) (p : Nat × Nat) (h : rowsOf g ≤ p.2 + 1) :
    grainStep g p = none := by
  unfold grainStep
  have hn : ¬ (p.2 + 1 < rowsOf g) := by omega
  simp [hn]

/-- With fuel at least the remaining rows, the fall ends on a position from
which no candidate move is legal (each step consumes one row). -/
theorem grainFall_settles (g : Grid) :
    ∀ fuel p, rowsOf g ≤ p.2 + fuel → grainStep g (grainFall g fuel p) = none := by
  intro fuel
  induction fuel with
  | zero =>
    intro p h
    exact grainStep_none_of_low g p (by omega)
  | succ fuel ih =>
    intro p h
    rw [grainFall]
    cases hs : grainStep g p with
    | none => exact hs
    | some q =>
      obtain ⟨hy, hlt, _⟩ := grainStep_some g p q hs
      exact ih q (by omega)

/-- The grain never moves up. -/
theorem grainFall_y_ge (g : Grid) : ∀ fuel p, p.2 ≤ (grainFall g fuel p).2 := by
  intro fuel
  induction fuel with
  | zero => intro p; rw [grainFall]
  | succ fuel ih =>
    intro p
    rw [grainFall]
    cases hs : grainStep g p with
    | none => exact Nat.le_refl _
    | some q =>
      obtain ⟨hy, -, -⟩ := grainStep_some g p q hs
      have hq := ih q
      show p.2 ≤ (grainFall g fuel q).2
      omega

/-- A grain that settled away from its start position settled strictly
inside the row bound. -/
theorem grainFall_moved_y_lt (g : Grid) :
    ∀ fuel p, grainFall g fuel p ≠ p → (grainFall g fuel p).2 < rowsOf g := by
  intro fuel
  induction fuel with
  | zero => intro p h; rw [grainFall] at h ⊢; exact absurd rfl h
  | succ fuel ih =>
    intro p h
    rw [grainFall] at h ⊢
    cases hs : grainStep g p with
    | none => rw [hs] at h; exact absurd rfl h
    | some q =>
      rw [hs] at h
      obtain ⟨hy, hlt, -⟩ := grainStep_some g p q hs
      show (grainFall g fuel q).2 < rowsOf g
      by_cases hq : grainFall g fuel q = q
      · rw [hq]; exact hlt
      · exact ih q hq

/-- Reading back the cell just written. -/
theorem gridGet_gridSet_self (g : Grid) (y x v : Nat) (hy : y < g.length)
    (hx : x < (g.getD y []).length) : gridGet (gridSet g y x v) y x = v := by
  unfold gridGet gridSet
  have h1 : (List.set g y ((g.getD y []).set x v)).getD y [] = (g.getD y []).set x v := by
    rw [List.getD_eq_getElem?_getD, List.getElem?_set_self hy]
    rfl
  rw [h1, List.getD_eq_getElem?_getD, List.getElem?_set_self (by simpa using hx)]
  rfl

/-- When the dropped grain settles away from the source, both remaining
branches of `Cave.tick` (overflow and normal tick) carry the grid with the
grain drawn. -/
theorem tick_grid_of_moved (c : Cave)
    (hne : grainFall c.grid (rowsOf c.grid) c.source ≠ c.source) :
    (c.tick).2.grid = gridSet c.grid (grainFall c.grid (rowsOf c.grid) c.source).2
      (grainFall c.grid (rowsOf c.grid) c.source).1 2 := by
  simp only [Cave.tick, if_neg hne]
  split <;> rfl

/-- When the dropped grain settles away from the source, `Cave.tick` draws
it: the resulting grid holds value 2 (sand) at the settle position,
whichever branch (overflow or normal tick) is taken. -/
theorem tick_draws_settled (c : Cave) (p : Nat × Nat)
    (hp : p = grainFall c.grid (rowsOf c.grid) c.source) (hne : p ≠ c.source)
    (hx : p.1 < (c.grid.getD p.2 []).length) :
    gridGet (c.tick).2.grid p.2 p.1 = 2 := by
  have hylt : p.2 < rowsOf c.grid := by
    rw [hp]
    exact grainFall_moved_y_lt c.grid _ _ (by rw [← hp]; exact hne)
  rw [tick_grid_of_moved c (by rw [← hp]; exact hne), ← hp]
  exact gridGet_gridSet_self c.grid p.2 p.1 2 hylt hx

/-- C7: (a) with fuel covering the rows, `Grain.fall` ends exactly when no
candidate move (down, then down-left, then down-right, tested against the
current occupancy in that priority order by `grainStep`) is legal; (b) while
a candidate move is legal the grain keeps falling — it moves to the first
legal candidate and does not settle where it stands; (c) a grain that
settles away from the source gets its cell drawn as occupied by
`Cave.tick`. -/
theorem c7_settles_iff_no_move :
    (∀ (g : Grid) (fuel : Nat) (p : Nat × Nat), rowsOf g ≤ p.2 + fuel →
        grainStep g (grainFall g fuel p) = none) ∧
    (∀ (g : Grid) (fuel : Nat) (p q : Nat × Nat), grainStep g p = some q →
        grainFall g (fuel + 1) p = grainFall g fuel q ∧ grainFall g (fuel + 1) p ≠ p) ∧
    (∀ (c : Cave) (p : Nat × Nat), p = grainFall c.grid (rowsOf c.grid) c.source →
        p ≠ c.source → p.1 < (c.grid.getD p.2 []).length →
        gridGet (c.tick).2.grid p.2 p.1 = 2) := by
  refine ⟨grainFall_settles, ?_, tick_draws_settled⟩
  intro g fuel p q hs
  have heq : grainFall g (fuel + 1) p = grainFall g fuel q := by
    rw [grainFall, hs]
  refine ⟨heq, ?_⟩
  rw [heq]
  intro hcontr
  obtain ⟨hy, _, _⟩ := grainStep_some g p q hs
  have := grainFall_y_ge g fuel q
  rw [hcontr] at this
  omega

/-- Witness for C7 on a concrete 3-row empty cave: the grain falls from
(1, 0) to the bottom row and settles at (1, 2), which is drawn as sand. -/
theorem c7_witness :
    grainStep [[0, 0, 0], [0, 0, 0], [0, 0, 0]]
        (grainFall [[0, 0, 0], [0, 0, 0], [0, 0, 0]] 3 (1, 0)) = none ∧
      grainFall [[0, 0, 0], [0, 0, 0], [0, 0, 0]] 3 (1, 0) =
        grainFall [[0, 0, 0], [0, 0, 0], [0, 0, 0]] 2 (1, 1) ∧
      gridGet ((Cave.mk 0 (1, 0) [[0, 0, 0], [0, 0, 0], [0, 0, 0]]).tick).2.grid 2 1 = 2 := by
  refine ⟨c7_settles_iff_no_move.1 _ 3 (1, 0) (by decide), ?_, ?_⟩
  · exact (c7_settles_iff_no_move.2.1 _ 2 (1, 0) (1, 1) (by decide)).1
  · exact c7_settles_iff_no_move.2.2 ⟨0, (1, 0), [[0, 0, 0], [0, 0, 0], [0, 0, 0]]⟩
      (1, 2) (by decide) (by decide) (by decide)

end Day14

/-- C8 (counterexample): out-of-bounds access is not a hard failure:
`Position.is_valid` simply returns `False` for the out-of-bounds coordinate
(-1, 0) on the canonical plotted valley state — the same plain value it
returns for the in-bounds blizzard-blocked cell (1, 1).  Out of bounds is
treated as merely invalid, indistinguishable from blocked. -/
theorem c8_counterexample :
    Day24.Position.is_valid ⟨-1, 0⟩ 6 8
        (Day24.canonValley.plotOnGrid Day24.canonValley.blizzards) = false ∧
      Day24.Position.is_valid ⟨1, 1⟩ 6 8
        (Day24.canonValley.plotOnGrid Day24.canonValley.blizzards) = false := by
  constructor
  · decide
  · decide

/-- C8 (amended): out-of-bounds coordinates are treated as invalid moves,
never silently clamped and never an error: (i) `Position.is_valid` returns
`false` for every coordinate outside the declared shape; (ii) a fall
candidate at or beyond the row bound is never legal; (iii) a grain starting
in bounds stays in bounds for any amount of fuel. -/
theorem c8_out_of_bounds_treated_invalid :
    (∀ (height width : Nat) (g : Day24.GridData) (p : Day24.Position),
        (p.x < 0 ∨ p.x ≥ (width : Int) ∨ p.y < 0 ∨ p.y ≥ (height : Int)) →
        p.is_valid height width g = false) ∧
    (∀ (g : Day14.Grid) (q : Nat × Nat), Day14.rowsOf g ≤ q.2 + 1 →
        Day14.grainStep g q = none) ∧
    (∀ (g : Day14.Grid) (fuel : Nat) (p : Nat × Nat),
        p.2 < Day14.rowsOf g → p.1 < Day14.colsOf g →
        (Day14.grainFall g fuel p).2 < Day14.rowsOf g ∧
          (Day14.grainFall g fuel p).1 < Day14.colsOf g) := by
  refine ⟨?_, Day14.grainStep_none_of_low, ?_⟩
  · intro height width g p h
    unfold Day24.Position.is_valid
    rw [if_pos h]
  · intro g fuel
    induction fuel with
    | zero => intro p hy hx; rw [Day14.grainFall]; exact ⟨hy, hx⟩
    | succ fuel ih =>
      intro p hy hx
      rw [Day14.grainFall]
      cases hs : Day14.grainStep g p with
      | none => exact ⟨hy, hx⟩
      | some q =>
        obtain ⟨_, hq2, hq1⟩ := Day14.grainStep_some g p q hs
        exact ih q hq2 (hq1 hx)

/-- Witness for C8's amended theorem: the out-of-bounds coordinate (-1, 0)
is reported invalid on the canonical plotted state; a grain on the bottom
row of a 3-row grid has no legal move; a grain dropped in bounds lands in
bounds. -/
theorem c8_witness :
    Day24.Position.is_valid ⟨-1, 0⟩ 6 8
        (Day24.canonValley.plotOnGrid Day24.canonValley.blizzards) = false ∧
      Day14.grainStep [[0, 0, 0], [0, 0, 0], [0, 0, 0]] (1, 2) = none ∧
      ((Day14.grainFall [[0, 0, 0], [0, 0, 0], [0, 0, 0]] 9 (1, 0)).2 < 3 ∧
        (Day14.grainFall [[0, 0, 0], [0, 0, 0], [0, 0, 0]] 9 (1, 0)).1 < 3) :=
  ⟨c8_out_of_bounds_treated_invalid.1 6 8
      (Day24.canonValley.plotOnGrid Day24.canonValley.blizzards) ⟨-1, 0⟩
      (Or.inl (by decide)),
    c8_out_of_bounds_treated_invalid.2.1 _ (1, 2) (by decide),
    c8_out_of_bounds_treated_invalid.2.2 _ 9 (1, 0) (by decide) (by decide)⟩

namespace Day11

/-- Generic preservation of a predicate along a left fold. -/
theorem foldl_preserve {α β : Type} (P : α → Prop) (f : α → β → α)
    (hf : ∀ a b, P a → P (f a b)) : ∀ (l : List β) (a : α), P a → P (l.foldl f a) := by
  intro l
  induction l with
  | nil => intro a ha; exact ha
  | cons b bs ih => intro a ha; exact ih (f a b) (hf a b ha)

/-- Filtering with a pointwise weaker predicate keeps at least as many
elements. -/
theorem filter_length_mono {α : Type} (p q : α → Bool) :
    ∀ l : List α, (∀ x ∈ l, p x = true → q x = true) →
      (l.filter p).length ≤ (l.filter q).length := by
  intro l
  induction l with
  | nil => intro _; simp
  | cons x xs ih =>
    intro hpq
    have ihx := ih (fun y hy => hpq y (List.mem_cons_of_mem _ hy))
    by_cases hp : p x = true
    · rw [List.filter_cons_of_pos hp, List.filter_cons_of_pos (hpq x (List.mem_cons_self _ _) hp)]
      simpa using ihx
    · rw [List.filter_cons_of_neg (by simpa using hp)]
      by_cases hq : q x = true
      · rw [List.filter_cons_of_pos hq]
        exact Nat.le_succ_of_le ihx
      · rw [List.filter_cons_of_neg (by simpa using hq)]
        exact ihx

/-- A flashed flag, once set, survives `Octopus.flash` (the flag is never
cleared during the cascade). -/
theorem flashF_flag_mono (w h : Nat) :
    ∀ fuel c s c', s.flashed c' = true → (flashF w h fuel c s).flashed c' = true := by
  intro fuel
  induction fuel with
  | zero => intro c s c' hc; rw [flashF]; exact hc
  | succ fuel ih =>
    intro c s c' hc
    rw [flashF]
    by_cases hsc : s.flashed c = true
    · rw [if_pos hsc]; exact hc
    · rw [if_neg hsc]
      refine foldl_preserve (fun t => t.flashed c' = true)
        (fun t n =>
          let t1 := incEnergy t n
          if 9 < t1.energy n then flashF w h fuel n t1 else t1) ?_
        (neighbours w h c) (markFlashed s c) ?_
      · intro t n ht
        dsimp only
        split
        · exact ih n (incEnergy t n) c' ht
        · exact ht
      · show (markFlashed s c).flashed c' = true
        simp only [markFlashed]
        by_cases hcc : c' = c
        · simp [hcc]
        · simp [hcc, hc]

/-- The per-octopus flash counter never exceeds its baseline plus one, with
the excess accounted by the flashed flag (the flag guards the counter
increment). -/
theorem flashF_nflash_bound (w h : Nat) (base : Int × Int → Nat) :
    ∀ fuel c s,
      (∀ c', s.nflash c' ≤ base c' + cond (s.flashed c') 1 0) →
      ∀ c', (flashF w h fuel c s).nflash c' ≤
        base c' + cond ((flashF w h fuel c s).flashed c') 1 0 := by
  intro fuel
  induction fuel with
  | zero => intro c s hs c'; rw [flashF]; exact hs c'
  | succ fuel ih =>
    intro c s hs c'
    rw [flashF]
    by_cases hsc : s.flashed c = true
    · rw [if_pos hsc]; exact hs c'
    · rw [if_neg hsc]
      refine foldl_preserve
        (fun t => ∀ c'', t.nflash c'' ≤ base c'' + cond (t.flashed c'') 1 0)
        (fun t n =>
          let t1 := incEnergy t n
          if 9 < t1.energy n then flashF w h fuel n t1 else t1) ?_
        (neighbours w h c) (markFlashed s c) ?_ c'
      · intro t n ht
        dsimp only
        split
        · exact ih n (incEnergy t n) ht
        · exact ht
      · intro c''
        show (markFlashed s c).nflash c'' ≤ base c'' + cond ((markFlashed s c).flashed c'') 1 0
        simp only [markFlashed]
        by_cases hcc : c'' = c
        · simp only [if_pos hcc]
          have := hs c''
          rw [hcc] at this ⊢
          simp only [Bool.not_eq_true] at hsc
          rw [hsc] at this
          simpa using this
        · simp only [if_neg hcc]
          exact hs c''

/-- One trigger pass preserves set flags. -/
theorem passAll_flag_mono (w h ff : Nat) (s : OState) (c' : Int × Int)
    (hc : s.flashed c' = true) : (passAll w h ff s).flashed c' = true := by
  refine foldl_preserve (fun t => t.flashed c' = true)
    (fun t c => if 9 < t.energy c then flashF w h ff c t else t) ?_
    (allCells w h) s hc
  intro t c ht
  dsimp only
  split
  · exact flashF_flag_mono w h ff c t c' ht
  · exact ht

/-- One trigger pass preserves the flash-counter bound. -/
theorem passAll_nflash_bound (w h ff : Nat) (base : Int × Int → Nat) (s : OState)
    (hs : ∀ c', s.nflash c' ≤ base c' + cond (s.flashed c') 1 0) :
    ∀ c', (passAll w h ff s).nflash c' ≤
      base c' + cond ((passAll w h ff s).flashed c') 1 0 := by
  refine foldl_preserve
    (fun t => ∀ c', t.nflash c' ≤ base c' + cond (t.flashed c') 1 0)
    (fun t c => if 9 < t.energy c then flashF w h ff c t else t) ?_
    (allCells w h) s hs
  intro t c ht
  dsimp only
  split
  · exact flashF_nflash_bound w h base ff c t ht
  · exact ht

/-- The flashed count never decreases across a trigger pass. -/
theorem countFlashed_mono_passAll (w h ff : Nat) (s : OState) :
    countFlashed w h s ≤ countFlashed w h (passAll w h ff s) := by
  unfold countFlashed
  exact filter_length_mono _ _ _ (fun c _ hc => passAll_flag_mono w h ff s c hc)

/-- The flashed count is bounded by the number of cells. -/
theorem countFlashed_le_cells (w h : Nat) (s : OState) :
    countFlashed w h s ≤ (allCells w h).length := by
  unfold countFlashed
  exact List.length_filter_le _ _

/-- The cell list enumerates `h * w` cells. -/
theorem allCells_length (w h : Nat) : (allCells w h).length = h * w := by
  unfold allCells
  induction h with
  | zero => simp
  | succ h ih =>
    rw [List.range_succ, List.flatMap_append, List.length_append, ih, List.flatMap_cons,
      List.flatMap_nil, List.append_nil, List.length_map, List.length_range]
    ring

/-- The trigger loop reaches its own exit (a pass that changes no count)
within `cells + 1` passes: the count strictly increases on every other
pass and cannot exceed the number of cells. -/
theorem flashLoop_terminates (w h ff : Nat) :
    ∀ fuel s, w * h + 1 - countFlashed w h s < fuel →
      ∃ s', flashLoop w h ff fuel (countFlashed w h s) s = some s' := by
  intro fuel
  induction fuel with
  | zero => intro s hlt; omega
  | succ fuel ih =>
    intro s hlt
    rw [flashLoop]
    by_cases he : countFlashed w h (passAll w h ff s) = countFlashed w h s
    · exact ⟨passAll w h ff s, by simp [he]⟩
    · have hmono := countFlashed_mono_passAll w h ff s
      have hbd : countFlashed w h (passAll w h ff s) ≤ w * h := by
        have := countFlashed_le_cells w h (passAll w h ff s)
        rw [allCells_length, Nat.mul_comm h w] at this
        omega
      obtain ⟨s', hs'⟩ := ih (passAll w h ff s) (by omega)
      exact ⟨s', by simp [he, hs']⟩

/-- Whatever state the trigger loop returns came from the entry state by a
chain of passes, so pass-invariant predicates survive it. -/
theorem flashLoop_preserve (w h ff : Nat) (P : OState → Prop)
    (hpass : ∀ s, P s → P (passAll w h ff s)) :
    ∀ fuel n s s', flashLoop w h ff fuel n s = some s' → P s → P s' := by
  intro fuel
  induction fuel with
  | zero => intro n s s' h0; simp [flashLoop] at h0
  | succ fuel ih =>
    intro n s s' hsome hP
    rw [flashLoop] at hsome
    by_cases he : countFlashed w h (passAll w h ff s) = n
    · rw [if_pos he] at hsome
      cases hsome
      exact hpass s hP
    · rw [if_neg he] at hsome
      exact ih _ _ _ hsome (hpass s hP)

/-- The reset loop does not touch the flash counters. -/
theorem resetAll_nflash (w h : Nat) (s : OState) (c : Int × Int) :
    (resetAll w h s).nflash c = s.nflash c := by
  refine foldl_preserve (fun t => t.nflash c = s.nflash c)
    (fun t c' => if 9 < t.energy c' then resetCell t c' else t) ?_
    (allCells w h) s rfl
  intro t c' ht
  dsimp only
  split
  · exact ht
  · exact ht

/-- The energy bump loop touches neither flags nor counters. -/
theorem incAllCells_nflash_flag (w h : Nat) (s : OState) :
    (∀ c, (incAllCells w h s).nflash c = s.nflash c) ∧
      (∀ c, (incAllCells w h s).flashed c = s.flashed c) := by
  refine foldl_preserve
    (fun t => (∀ c, t.nflash c = s.nflash c) ∧ (∀ c, t.flashed c = s.flashed c))
    (fun t c => incEnergy t c) ?_ (allCells w h) s ⟨fun _ => rfl, fun _ => rfl⟩
  intro t c' ht
  exact ht

/-- A monotone ℕ-sequence bounded by B repeats a value within its first
B + 1 steps. -/
theorem monotone_bounded_stabilizes (g : Nat → Nat) (B : Nat)
    (hmono : ∀ k, g k ≤ g (k + 1)) (hbd : ∀ k, g k ≤ B) :
    ∃ k, k ≤ B ∧ g (k + 1) = g k := by
  by_contra hcon
  push_neg at hcon
  have hstrict : ∀ k, k ≤ B → g k < g (k + 1) := by
    intro k hk
    exact Nat.lt_of_le_of_ne (hmono k) (fun he => hcon k hk he.symm)
  have hge : ∀ j, j ≤ B + 1 → j ≤ g j := by
    intro j
    induction j with
    | zero => intro _; exact Nat.zero_le _
    | succ j ihj =>
      intro hj
      have h1 := ihj (by omega)
      have h2 := hstrict j (by omega)
      omega
  have h1 := hge (B + 1) (Nat.le_refl _)
  have h2 := hbd (B + 1)
  omega

/-- C6: from any grid whose cells all start at most 9 (below triggering),
one `step` tick (a) terminates — the trigger loop reaches its own
fixed-point exit within the provided fuel — with every cell's flash counter
at most 1 (each cell flashes at most once per tick), and (b) the flashed
count stabilizes within `w * h` trigger passes (the fixed point is reached
in at most as many passes as there are cells). -/
theorem c6_cascade_tick (w h : Nat) (e : Int × Int → Nat)
    (hbelow : ∀ c ∈ allCells w h, e c ≤ 9) :
    (∃ s', step w h (initState e) = some s' ∧ ∀ c, s'.nflash c ≤ 1) ∧
      (∃ k, k ≤ w * h ∧
        countFlashed w h
            ((passAll w h (w * h + 1))^[k + 1] (incAllCells w h (initState e))) =
          countFlashed w h
            ((passAll w h (w * h + 1))^[k] (incAllCells w h (initState e)))) := by
  constructor
  · have hterm := flashLoop_terminates w h (w * h + 1) (w * h + 2)
      (incAllCells w h (initState e)) (by omega)
    obtain ⟨s2, hs2⟩ := hterm
    refine ⟨resetAll w h s2, ?_, ?_⟩
    · show Option.map (resetAll w h)
        (flashLoop w h (w * h + 1) (w * h + 2)
          (countFlashed w h (incAllCells w h (initState e)))
          (incAllCells w h (initState e))) = some (resetAll w h s2)
      rw [hs2]
      rfl
    · intro c
      have hbase : ∀ c', (incAllCells w h (initState e)).nflash c' ≤
          (fun _ => 0) c' + cond ((incAllCells w h (initState e)).flashed c') 1 0 := by
        intro c'
        rw [(incAllCells_nflash_flag w h (initState e)).1 c',
          (incAllCells_nflash_flag w h (initState e)).2 c']
        simp [initState]
      have hinv := flashLoop_preserve w h (w * h + 1)
        (fun t => ∀ c', t.nflash c' ≤ (fun _ => 0) c' + cond (t.flashed c') 1 0)
        (fun s hs => passAll_nflash_bound w h (w * h + 1) (fun _ => 0) s hs)
        (w * h + 2) _ _ s2 hs2 hbase
      have := hinv c
      rw [resetAll_nflash]
      cases hflag : s2.flashed c <;> simp [hflag] at this <;> omega
  · refine monotone_bounded_stabilizes
      (fun k => countFlashed w h
        ((passAll w h (w * h + 1))^[k] (incAllCells w h (initState e)))) (w * h) ?_ ?_
    · intro k
      dsimp only
      rw [Function.iterate_succ_apply']
      exact countFlashed_mono_passAll w h (w * h + 1) _
    · intro k
      dsimp only
      have := countFlashed_le_cells w h
        ((passAll w h (w * h + 1))^[k] (incAllCells w h (initState e)))
      rw [allCells_length, Nat.mul_comm h w] at this
      omega

/-- Witness for C6 on the 2×2 all-zero grid: the tick completes and the
corner cell flashed at most once. -/
theorem c6_witness :
    (step 2 2 (initState (fun _ => 0))).isSome = true ∧
      ((step 2 2 (initState (fun _ => 0))).map (fun s' => s'.nflash (0, 0))).getD 2 ≤ 1 := by
  obtain ⟨⟨s', hs, hb⟩, -⟩ := c6_cascade_tick 2 2 (fun _ => 0) (by decide)
  rw [hs]
  exact ⟨rfl, by simpa using hb (0, 0)⟩

end Day11

namespace Day24

/-- `List.getD` at an in-range index. -/
theorem getD_eq_getElem {α : Type} (l : List α) (i : Nat) (d : α) (h : i < l.length) :
    l.getD i d = l[i] := by
  rw [List.getD_eq_getElem?_getD, List.getElem?_eq_getElem h]
  rfl

/-- Fold preservation where the step hypothesis may use membership of the
folded element. -/
theorem foldl_preserve_mem {α β : Type} (P : α → Prop) (f : α → β → α) :
    ∀ l : List β, (∀ a b, b ∈ l → P a → P (f a b)) → ∀ a, P a → P (l.foldl f a) := by
  intro l
  induction l with
  | nil => intro _ a ha; exact ha
  | cons b bs ih =>
    intro hf a ha
    exact ih (fun a' b' hb' ha' => hf a' b' (List.mem_cons_of_mem _ hb') ha') (f a b)
      (hf a b (List.mem_cons_self _ _) ha)

/-- The constructor grid has `height` rows of `width` cells. -/
theorem baseGrid_shaped (v : Valley) : gridShaped v.height v.width v.baseGrid := by
  constructor
  · simp [Valley.baseGrid]
  · intro row hrow
    simp only [Valley.baseGrid, List.mem_map, List.mem_range] at hrow
    obtain ⟨y, -, hrow⟩ := hrow
    rw [← hrow]
    simp

/-- In-range cell assignment keeps the grid shape. -/
theorem setCell_shaped (height width : Nat) (g : GridData) (hg : gridShaped height width g)
    (y x : Int) (v' : Nat) (hy : 0 ≤ y) (hyh : y < (height : Int)) :
    gridShaped height width (setCell g y x v') := by
  obtain ⟨hlen, hrows⟩ := hg
  have hyt : y.toNat < g.length := by omega
  constructor
  · rw [setCell, List.length_set, hlen]
  · intro row hrow
    rcases List.mem_or_eq_of_mem_set hrow with h | h
    · exact hrows row h
    · rw [h, List.length_set, getD_eq_getElem _ _ _ hyt]
      exact hrows _ (List.getElem_mem hyt)

/-- Reading after an in-range cell assignment. -/
theorem cellGet_setCell (height width : Nat) (g : GridData)
    (hg : gridShaped height width g) (y x y' x' : Int) (v' : Nat)
    (hy : 0 ≤ y) (hyh : y < (height : Int)) (hx : 0 ≤ x) (hxw : x < (width : Int))
    (hy' : 0 ≤ y') (hyh' : y' < (height : Int)) (hx' : 0 ≤ x') (hxw' : x' < (width : Int)) :
    cellGet (setCell g y x v') y' x' =
      if y' = y ∧ x' = x then v' else cellGet g y' x' := by
  obtain ⟨hlen, hrows⟩ := hg
  have hyt : y.toNat < g.length := by omega
  have hrowlen : (g.getD y.toNat []).length = width := by
    rw [getD_eq_getElem _ _ _ hyt]
    exact hrows _ (List.getElem_mem hyt)
  unfold cellGet setCell
  by_cases hyy : y' = y
  · subst hyy
    have h1 : (g.set y'.toNat ((g.getD y'.toNat []).set x.toNat v')).getD y'.toNat [] =
        (g.getD y'.toNat []).set x.toNat v' := by
      rw [List.getD_eq_getElem?_getD, List.getElem?_set_self hyt]
      rfl
    rw [h1]
    by_cases hxx : x' = x
    · subst hxx
      rw [if_pos ⟨rfl, rfl⟩, List.getD_eq_getElem?_getD,
        List.getElem?_set_self (by omega), Option.getD_some]
    · rw [if_neg (fun hc => hxx hc.2), List.getD_eq_getElem?_getD,
        List.getElem?_set_ne (show x.toNat ≠ x'.toNat by omega),
        ← List.getD_eq_getElem?_getD]
  · rw [if_neg (fun hc => hyy hc.1)]
    have h1 : (g.set y.toNat ((g.getD y.toNat []).set x.toNat v')).getD y'.toNat [] =
        g.getD y'.toNat [] := by
      rw [List.getD_eq_getElem?_getD,
        List.getElem?_set_ne (show y.toNat ≠ y'.toNat by omega),
        ← List.getD_eq_getElem?_getD]
    rw [h1]

/-- The constructor grid realizes `baseCell`. -/
theorem baseGrid_cell (v : Valley) (y x : Int) (hy : 0 ≤ y) (hyh : y < (v.height : Int))
    (hx : 0 ≤ x) (hxw : x < (v.width : Int)) :
    cellGet v.baseGrid y x = v.baseCell y x := by
  have hyt : y.toNat < v.height := by omega
  have hxt : x.toNat < v.width := by omega
  have hrow : (v.baseGrid).getD y.toNat [] =
      (List.range v.width).map (fun x' => v.baseCell (Int.ofNat y.toNat) (Int.ofNat x')) := by
    unfold Valley.baseGrid
    rw [List.getD_eq_getElem?_getD, List.getElem?_map,
      List.getElem?_range (by simpa [Valley.baseGrid] using hyt)]
    rfl
  unfold cellGet
  rw [hrow, List.getD_eq_getElem?_getD, List.getElem?_map, List.getElem?_range hxt]
  simp only [Option.map_some', Option.getD_some]
  have hyy : Int.ofNat y.toNat = y := Int.toNat_of_nonneg hy
  have hxx : Int.ofNat x.toNat = x := Int.toNat_of_nonneg hx
  rw [hyy, hxx]

/-- Folding blizzard marks over a grid: a cell reads `BLIZZARD` when some
blizzard of the list sits on it, and keeps its accumulator value
otherwise. -/
theorem plot_fold_cell (v : Valley) :
    ∀ (bs : List Blizzard) (gacc : GridData), gridShaped v.height v.width gacc →
      (∀ b ∈ bs, 0 ≤ b.position.x ∧ b.position.x < (v.width : Int) ∧
        0 ≤ b.position.y ∧ b.position.y < (v.height : Int)) →
      ∀ y x : Int, 0 ≤ y → y < (v.height : Int) → 0 ≤ x → x < (v.width : Int) →
      cellGet (bs.foldl (fun g b => setCell g b.position.y b.position.x Tile.BLIZZARD) gacc)
          y x =
        if ∃ b ∈ bs, b.position = ⟨x, y⟩ then Tile.BLIZZARD else cellGet gacc y x := by
  intro bs
  induction bs with
  | nil =>
    intro gacc hsh hbs y x hy hyh hx hxw
    simp
  | cons b rest ih =>
    intro gacc hsh hbs y x hy hyh hx hxw
    rw [List.foldl_cons]
    obtain ⟨hbx, hbxw, hby, hbyh⟩ := hbs b (List.mem_cons_self _ _)
    rw [ih (setCell gacc b.position.y b.position.x Tile.BLIZZARD)
        (setCell_shaped _ _ _ hsh _ _ _ hby hbyh)
        (fun b' hb' => hbs b' (List.mem_cons_of_mem _ hb')) y x hy hyh hx hxw,
      cellGet_setCell _ _ _ hsh _ _ _ _ _ hby hbyh hbx hbxw hy hyh hx hxw]
    by_cases hex : ∃ b' ∈ rest, b'.position = ⟨x, y⟩
    · have hcons : ∃ b'' ∈ b :: rest, b''.position = ⟨x, y⟩ := by
        obtain ⟨b', hb', he⟩ := hex
        exact ⟨b', List.mem_cons_of_mem _ hb', he⟩
      rw [if_pos hex, if_pos hcons]
    · rw [if_neg hex]
      by_cases hbp : b.position = ⟨x, y⟩
      · have hy1 : b.position.y = y := by rw [hbp]
        have hx1 : b.position.x = x := by rw [hbp]
        rw [if_pos ⟨hy1.symm, hx1.symm⟩, if_pos ⟨b, List.mem_cons_self _ _, hbp⟩]
      · have hne : ¬(y = b.position.y ∧ x = b.position.x) := by
          intro hc
          apply hbp
          cases hb0 : b.position with
          | mk bx by' =>
            rw [hb0] at hc
            simp only at hc
            rw [hc.1, hc.2]
        rw [if_neg hne, if_neg ?_]
        intro hc
        obtain ⟨b', hb', he⟩ := hc
        rcases List.mem_cons.mp hb' with h | h
        · rw [← h] at hbp; exact hbp he
        · exact hex ⟨b', h, he⟩

/-- The plotted grid keeps the constructor shape. -/
theorem plot_shaped (v : Valley) (bs : List Blizzard)
    (hbs : ∀ b ∈ bs, 0 ≤ b.position.y ∧ b.position.y < (v.height : Int)) :
    gridShaped v.height v.width (v.plotOnGrid bs) := by
  unfold Valley.plotOnGrid
  refine foldl_preserve_mem (gridShaped v.height v.width) _ bs ?_ _ (baseGrid_shaped v)
  intro g b hb hg
  exact setCell_shaped _ _ _ hg _ _ _ (hbs b hb).1 (hbs b hb).2

/-- Cell values of a plotted grid. -/
theorem plot_cell (v : Valley) (bs : List Blizzard)
    (hbs : ∀ b ∈ bs, 0 ≤ b.position.x ∧ b.position.x < (v.width : Int) ∧
      0 ≤ b.position.y ∧ b.position.y < (v.height : Int))
    (y x : Int) (hy : 0 ≤ y) (hyh : y < (v.height : Int)) (hx : 0 ≤ x)
    (hxw : x < (v.width : Int)) :
    cellGet (v.plotOnGrid bs) y x =
      if ∃ b ∈ bs, b.position = ⟨x, y⟩ then Tile.BLIZZARD else v.baseCell y x := by
  unfold Valley.plotOnGrid
  rw [plot_fold_cell v bs v.baseGrid (baseGrid_shaped v) hbs y x hy hyh hx hxw,
    baseGrid_cell v y x hy hyh hx hxw]

/-- Interior non-door cells of the constructor grid are empty. -/
theorem baseCell_interior (v : Valley)
    (hen : v.entrance.y = 0) (hex : v.exit.y = (v.height : Int) - 1) (y x : Int)
    (h1 : 1 ≤ x) (h2 : x ≤ (v.width : Int) - 2) (h3 : 1 ≤ y)
    (h4 : y ≤ (v.height : Int) - 2) : v.baseCell y x = Tile.EMPTY := by
  unfold Valley.baseCell
  rw [if_neg, if_neg]
  · intro hc
    rcases hc with h | h | h | h <;> omega
  · intro hc
    rcases hc with ⟨-, hyc⟩ | ⟨-, hyc⟩
    · rw [hen] at hyc; omega
    · rw [hex] at hyc; omega

/-- Non-door cells of the wall ring are walls. -/
theorem baseCell_wall (v : Valley) (y x : Int)
    (hborder : y = 0 ∨ y = (v.height : Int) - 1 ∨ x = 0 ∨ x = (v.width : Int) - 1)
    (hnotdoor : ¬((x = v.entrance.x ∧ y = v.entrance.y) ∨
      (x = v.exit.x ∧ y = v.exit.y))) : v.baseCell y x = Tile.WALL := by
  unfold Valley.baseCell
  rw [if_neg hnotdoor, if_pos hborder]

end Day24

namespace Day24

/-- On a plotted grid of interior blizzards, a read inside the shape sees a
wall exactly on the non-door ring. -/
theorem plot_wall_iff (v : Valley) (bs : List Blizzard)
    (hbs : ∀ b' ∈ bs, GoodBlizzard v b') (ny nx : Int)
    (hny : 0 ≤ ny) (hnyh : ny < (v.height : Int)) (hnx : 0 ≤ nx)
    (hnxw : nx < (v.width : Int))
    (hnotdoor : ¬((nx = v.entrance.x ∧ ny = v.entrance.y) ∨
      (nx = v.exit.x ∧ ny = v.exit.y))) :
    cellGet (v.plotOnGrid bs) ny nx = Tile.WALL ↔
      (ny = 0 ∨ ny = (v.height : Int) - 1 ∨ nx = 0 ∨ nx = (v.width : Int) - 1) := by
  have hbsRange : ∀ b' ∈ bs, 0 ≤ b'.position.x ∧ b'.position.x < (v.width : Int) ∧
      0 ≤ b'.position.y ∧ b'.position.y < (v.height : Int) := by
    intro b' hb'
    obtain ⟨h1, h2, h3, h4, -⟩ := hbs b' hb'
    exact ⟨by omega, by omega, by omega, by omega⟩
  rw [plot_cell v bs hbsRange ny nx hny hnyh hnx hnxw]
  by_cases hblizz : ∃ b' ∈ bs, b'.position = ⟨nx, ny⟩
  · rw [if_pos hblizz]
    obtain ⟨b', hb', he⟩ := hblizz
    obtain ⟨h1, h2, h3, h4, -⟩ := hbs b' hb'
    rw [he] at h1 h2 h3 h4
    constructor
    · intro hc; exact absurd hc (by decide)
    · intro hc; simp only at h1 h2 h3 h4; omega
  · rw [if_neg hblizz]
    constructor
    · intro hc
      by_contra hnb
      rw [Valley.baseCell, if_neg hnotdoor, if_neg hnb] at hc
      exact absurd hc (by decide)
    · intro hb'
      exact baseCell_wall v ny nx hb' hnotdoor

/-- Under the good-valley hypotheses, the grid-driven `Blizzard.move` agrees
with the arithmetical `moveSpec` on every blizzard of the plotted list. -/
theorem move_eq_moveSpec (v : Valley) (hw : 3 ≤ v.width) (hh : 3 ≤ v.height)
    (hen : v.entrance.y = 0) (hex : v.exit.y = (v.height : Int) - 1)
    (bs : List Blizzard) (hbs : ∀ b' ∈ bs, GoodBlizzard v b')
    (b : Blizzard) (hb : b ∈ bs) :
    Blizzard.move v (v.plotOnGrid bs) b = moveSpec v b := by
  cases b with
  | mk d pos =>
    cases pos with
    | mk x y =>
      obtain ⟨hx1, hx2, hy1, hy2, hvert⟩ := hbs ⟨d, ⟨x, y⟩⟩ hb
      simp only at hx1 hx2 hy1 hy2 hvert
      cases d with
      | RIGHT =>
        have hcond : npGet v (v.plotOnGrid bs) (y + 0) (x + 1) = Tile.WALL ↔
            x + 1 = (v.width : Int) - 1 := by
          unfold npGet
          rw [if_neg (by omega), if_neg (by omega), add_zero,
            plot_wall_iff v bs hbs y (x + 1) (by omega) (by omega) (by omega) (by omega)
              ?_]
          · constructor
            · intro hc; rcases hc with h | h | h | h <;> omega
            · intro hc; omega
          · intro hc
            rcases hc with ⟨-, hyd⟩ | ⟨-, hyd⟩
            · rw [hen] at hyd; omega
            · rw [hex] at hyd; omega
        simp only [Blizzard.move, moveSpec, Direction.value]
        by_cases hwrap : x + 1 = (v.width : Int) - 1
        · rw [if_pos (hcond.mpr hwrap), if_pos hwrap]
        · rw [if_neg (fun hc => hwrap (hcond.mp hc)), if_neg hwrap, add_zero]
      | LEFT =>
        have hcond : npGet v (v.plotOnGrid bs) (y + 0) (x + -1) = Tile.WALL ↔
            x - 1 = 0 := by
          unfold npGet
          rw [if_neg (by omega), if_neg (by omega), add_zero,
            plot_wall_iff v bs hbs y (x + -1) (by omega) (by omega) (by omega) (by omega)
              ?_]
          · constructor
            · intro hc; rcases hc with h | h | h | h <;> omega
            · intro hc; omega
          · intro hc
            rcases hc with ⟨-, hyd⟩ | ⟨-, hyd⟩
            · rw [hen] at hyd; omega
            · rw [hex] at hyd; omega
        simp only [Blizzard.move, moveSpec, Direction.value]
        by_cases hwrap : x - 1 = 0
        · rw [if_pos (hcond.mpr hwrap), if_pos hwrap]
        · rw [if_neg (fun hc => hwrap (hcond.mp hc)), if_neg hwrap, add_zero]
          have hsub : x + -1 = x - 1 := by ring
          rw [hsub]
      | TOP =>
        have hdoor : ¬((x = v.entrance.x ∧ y + -1 = v.entrance.y) ∨
            (x = v.exit.x ∧ y + -1 = v.exit.y)) := by
          intro hc
          rcases hc with ⟨hxd, -⟩ | ⟨hxd, hyd⟩
          · exact (hvert (Or.inl rfl)).1 hxd
          · exact (hvert (Or.inl rfl)).2 hxd
        have hcond : npGet v (v.plotOnGrid bs) (y + -1) (x + 0) = Tile.WALL ↔
            y - 1 = 0 := by
          unfold npGet
          rw [if_neg (by omega), if_neg (by omega), add_zero,
            plot_wall_iff v bs hbs (y + -1) x (by omega) (by omega) (by omega) (by omega)
              hdoor]
          constructor
          · intro hc; rcases hc with h | h | h | h <;> omega
          · intro hc; omega
        simp only [Blizzard.move, moveSpec, Direction.value]
        by_cases hwrap : y - 1 = 0
        · rw [if_pos (hcond.mpr hwrap), if_pos hwrap]
        · rw [if_neg (fun hc => hwrap (hcond.mp hc)), if_neg hwrap, add_zero]
          have hsub : y + -1 = y - 1 := by ring
          rw [hsub]
      | BOTTOM =>
        have hdoor : ¬((x = v.entrance.x ∧ y + 1 = v.entrance.y) ∨
            (x = v.exit.x ∧ y + 1 = v.exit.y)) := by
          intro hc
          rcases hc with ⟨hxd, -⟩ | ⟨hxd, -⟩
          · exact (hvert (Or.inr rfl)).1 hxd
          · exact (hvert (Or.inr rfl)).2 hxd
        have hcond : npGet v (v.plotOnGrid bs) (y + 1) (x + 0) = Tile.WALL ↔
            y + 1 = (v.height : Int) - 1 := by
          unfold npGet
          rw [if_neg (by omega), if_neg (by omega), add_zero,
            plot_wall_iff v bs hbs (y + 1) x (by omega) (by omega) (by omega) (by omega)
              hdoor]
          constructor
          · intro hc; rcases hc with h | h | h | h <;> omega
          · intro hc; omega
        simp only [Blizzard.move, moveSpec, Direction.value]
        by_cases hwrap : y + 1 = (v.height : Int) - 1
        · rw [if_pos (hcond.mpr hwrap), if_pos hwrap]
        · rw [if_neg (fun hc => hwrap (hcond.mp hc)), if_neg hwrap, add_zero]
      | STAY =>
        have hblizz : ∃ b' ∈ bs, b'.position = ⟨x + 0, y + 0⟩ := by
          refine ⟨⟨Direction.STAY, ⟨x, y⟩⟩, hb, ?_⟩
          simp
        have hbsRange : ∀ b' ∈ bs, 0 ≤ b'.position.x ∧ b'.position.x < (v.width : Int) ∧
            0 ≤ b'.position.y ∧ b'.position.y < (v.height : Int) := by
          intro b' hb'
          obtain ⟨h1, h2, h3, h4, -⟩ := hbs b' hb'
          exact ⟨by omega, by omega, by omega, by omega⟩
        have hcond : npGet v (v.plotOnGrid bs) (y + 0) (x + 0) ≠ Tile.WALL := by
          unfold npGet
          rw [if_neg (by omega), if_neg (by omega),
            plot_cell v bs hbsRange (y + 0) (x + 0) (by omega) (by omega) (by omega)
              (by omega), if_pos hblizz]
          decide
        simp only [Blizzard.move, moveSpec, Direction.value]
        rw [if_neg hcond]
        simp

end Day24

namespace Day24

/-- Adding one commutes with a pending remainder. -/
theorem emod_add_one (a W : Int) : (a % W + 1) % W = (a + 1) % W := by
  conv_rhs => rw [Int.add_emod]
  conv_lhs => rw [Int.add_emod]
  rw [Int.emod_emod_of_dvd _ dvd_rfl]

/-- Subtracting one commutes with a pending remainder. -/
theorem emod_sub_one (a W : Int) : (a % W - 1) % W = (a - 1) % W := by
  conv_rhs => rw [Int.sub_emod]
  conv_lhs => rw [Int.sub_emod]
  rw [Int.emod_emod_of_dvd _ dvd_rfl]

/-- Closed form of the wrap-increment walk on `1 .. W` (the horizontal
rightward / vertical downward blizzard coordinate). -/
theorem incLam_iterate (W : Int) (hW : 0 < W) :
    ∀ (t : Nat) (z : Int), 0 ≤ z - 1 → z - 1 < W →
      (fun z' => if z' + 1 = W + 1 then 1 else z' + 1)^[t] z = 1 + (z - 1 + t) % W := by
  intro t
  induction t with
  | zero =>
    intro z h1 h2
    simp only [Function.iterate_zero, id_eq, Nat.cast_zero, add_zero]
    rw [Int.emod_eq_of_lt h1 h2]
    ring
  | succ t ih =>
    intro z h1 h2
    rw [Function.iterate_succ_apply', ih z h1 h2]
    have hr0 : 0 ≤ (z - 1 + (t : Int)) % W := Int.emod_nonneg _ (by omega)
    have hrW : (z - 1 + (t : Int)) % W < W := Int.emod_lt_of_pos _ hW
    have hcast : ((t + 1 : Nat) : Int) = (t : Int) + 1 := by push_cast; ring
    rw [hcast]
    by_cases hwrap : 1 + (z - 1 + (t : Int)) % W + 1 = W + 1
    · rw [if_pos hwrap]
      have hnext : (z - 1 + ((t : Int) + 1)) % W = 0 := by
        rw [show z - 1 + ((t : Int) + 1) = z - 1 + (t : Int) + 1 from by ring,
          ← emod_add_one, show (z - 1 + (t : Int)) % W + 1 = W from by omega,
          Int.emod_self]
      rw [hnext]
      norm_num
    · rw [if_neg hwrap]
      have hnext : (z - 1 + ((t : Int) + 1)) % W = (z - 1 + (t : Int)) % W + 1 := by
        rw [show z - 1 + ((t : Int) + 1) = z - 1 + (t : Int) + 1 from by ring,
          ← emod_add_one, Int.emod_eq_of_lt (by omega) (by omega)]
      rw [hnext]
      ring

/-- Closed form of the wrap-decrement walk on `1 .. W` (the horizontal
leftward / vertical upward blizzard coordinate). -/
theorem decLam_iterate (W : Int) (hW : 0 < W) :
    ∀ (t : Nat) (z : Int), 0 ≤ z - 1 → z - 1 < W →
      (fun z' => if z' - 1 = 0 then W else z' - 1)^[t] z = 1 + (z - 1 - t) % W := by
  intro t
  induction t with
  | zero =>
    intro z h1 h2
    simp only [Function.iterate_zero, id_eq, Nat.cast_zero, sub_zero]
    rw [Int.emod_eq_of_lt h1 h2]
    ring
  | succ t ih =>
    intro z h1 h2
    rw [Function.iterate_succ_apply', ih z h1 h2]
    have hr0 : 0 ≤ (z - 1 - (t : Int)) % W := Int.emod_nonneg _ (by omega)
    have hrW : (z - 1 - (t : Int)) % W < W := Int.emod_lt_of_pos _ hW
    have hcast : ((t + 1 : Nat) : Int) = (t : Int) + 1 := by push_cast; ring
    rw [hcast]
    by_cases hwrap : 1 + (z - 1 - (t : Int)) % W - 1 = 0
    · rw [if_pos hwrap]
      have hnext : (z - 1 - ((t : Int) + 1)) % W = W - 1 := by
        rw [show z - 1 - ((t : Int) + 1) = z - 1 - (t : Int) - 1 from by ring,
          ← emod_sub_one, show (z - 1 - (t : Int)) % W = 0 from by omega]
        rw [show (0 : Int) - 1 = W - 1 + W * (-1) from by ring,
          Int.add_mul_emod_self_left, Int.emod_eq_of_lt (by omega) (by omega)]
      rw [hnext]
      ring
    · rw [if_neg hwrap]
      have hnext : (z - 1 - ((t : Int) + 1)) % W = (z - 1 - (t : Int)) % W - 1 := by
        rw [show z - 1 - ((t : Int) + 1) = z - 1 - (t : Int) - 1 from by ring,
          ← emod_sub_one, Int.emod_eq_of_lt (by omega) (by omega)]
      rw [hnext]
      ring

/-- Iterating `moveSpec` on a rightward blizzard acts on the x coordinate
only, by the wrap-increment walk with boundary `width - 1`. -/
theorem iterate_conj_RIGHT (v : Valley) :
    ∀ (t : Nat) (x y : Int), (moveSpec v)^[t] ⟨.RIGHT, ⟨x, y⟩⟩ =
      ⟨.RIGHT, ⟨(fun z => if z + 1 = ((v.width : Int) - 2) + 1 then 1 else z + 1)^[t] x,
        y⟩⟩ := by
  intro t
  induction t with
  | zero => intro x y; rfl
  | succ t ih =>
    intro x y
    rw [Function.iterate_succ_apply, Function.iterate_succ_apply]
    have hb : ((v.width : Int) - 2) + 1 = (v.width : Int) - 1 := by ring
    by_cases hc : x + 1 = (v.width : Int) - 1
    · rw [show moveSpec v ⟨.RIGHT, ⟨x, y⟩⟩ = ⟨.RIGHT, ⟨1, y⟩⟩ from by
          simp only [moveSpec]; rw [if_pos hc],
        if_pos (show x + 1 = ((v.width : Int) - 2) + 1 from by omega), ih]
    · rw [show moveSpec v ⟨.RIGHT, ⟨x, y⟩⟩ = ⟨.RIGHT, ⟨x + 1, y⟩⟩ from by
          simp only [moveSpec]; rw [if_neg hc],
        if_neg (show ¬ x + 1 = ((v.width : Int) - 2) + 1 from by omega), ih]

/-- Iterating `moveSpec` on a leftward blizzard. -/
theorem iterate_conj_LEFT (v : Valley) :
    ∀ (t : Nat) (x y : Int), (moveSpec v)^[t] ⟨.LEFT, ⟨x, y⟩⟩ =
      ⟨.LEFT, ⟨(fun z => if z - 1 = 0 then ((v.width : Int) - 2) else z - 1)^[t] x, y⟩⟩ := by
  intro t
  induction t with
  | zero => intro x y; rfl
  | succ t ih =>
    intro x y
    rw [Function.iterate_succ_apply, Function.iterate_succ_apply]
    by_cases hc : x - 1 = 0
    · rw [show moveSpec v ⟨.LEFT, ⟨x, y⟩⟩ = ⟨.LEFT, ⟨(v.width : Int) - 2, y⟩⟩ from by
          simp only [moveSpec]; rw [if_pos hc],
        if_pos hc, ih]
    · rw [show moveSpec v ⟨.LEFT, ⟨x, y⟩⟩ = ⟨.LEFT, ⟨x - 1, y⟩⟩ from by
          simp only [moveSpec]; rw [if_neg hc],
        if_neg hc, ih]

/-- Iterating `moveSpec` on a downward blizzard. -/
theorem iterate_conj_BOTTOM (v : Valley) :
    ∀ (t : Nat) (x y : Int), (moveSpec v)^[t] ⟨.BOTTOM, ⟨x, y⟩⟩ =
      ⟨.BOTTOM, ⟨x,
        (fun z => if z + 1 = ((v.height : Int) - 2) + 1 then 1 else z + 1)^[t] y⟩⟩ := by
  intro t
  induction t with
  | zero => intro x y; rfl
  | succ t ih =>
    intro x y
    rw [Function.iterate_succ_apply, Function.iterate_succ_apply]
    by_cases hc : y + 1 = (v.height : Int) - 1
    · rw [show moveSpec v ⟨.BOTTOM, ⟨x, y⟩⟩ = ⟨.BOTTOM, ⟨x, 1⟩⟩ from by
          simp only [moveSpec]; rw [if_pos hc],
        if_pos (show y + 1 = ((v.height : Int) - 2) + 1 from by omega), ih]
    · rw [show moveSpec v ⟨.BOTTOM, ⟨x, y⟩⟩ = ⟨.BOTTOM, ⟨x, y + 1⟩⟩ from by
          simp only [moveSpec]; rw [if_neg hc],
        if_neg (show ¬ y + 1 = ((v.height : Int) - 2) + 1 from by omega), ih]

/-- Iterating `moveSpec` on an upward blizzard. -/
theorem iterate_conj_TOP (v : Valley) :
    ∀ (t : Nat) (x y : Int), (moveSpec v)^[t] ⟨.TOP, ⟨x, y⟩⟩ =
      ⟨.TOP, ⟨x, (fun z => if z - 1 = 0 then ((v.height : Int) - 2) else z - 1)^[t] y⟩⟩ := by
  intro t
  induction t with
  | zero => intro x y; rfl
  | succ t ih =>
    intro x y
    rw [Function.iterate_succ_apply, Function.iterate_succ_apply]
    by_cases hc : y - 1 = 0
    · rw [show moveSpec v ⟨.TOP, ⟨x, y⟩⟩ = ⟨.TOP, ⟨x, (v.height : Int) - 2⟩⟩ from by
          simp only [moveSpec]; rw [if_pos hc],
        if_pos hc, ih]
    · rw [show moveSpec v ⟨.TOP, ⟨x, y⟩⟩ = ⟨.TOP, ⟨x, y - 1⟩⟩ from by
          simp only [moveSpec]; rw [if_neg hc],
        if_neg hc, ih]

/-- Each good blizzard returns to its start after `lcm(innerW, innerH)`
arithmetic moves. -/
theorem moveSpec_period (v : Valley) (b : Blizzard) (hb : GoodBlizzard v b) :
    (moveSpec v)^[v.period] b = b := by
  cases b with
  | mk d pos =>
    cases pos with
    | mk x y =>
      obtain ⟨hx1, hx2, hy1, hy2, -⟩ := hb
      simp only at hx1 hx2 hy1 hy2
      have hW : (0 : Int) < (v.width : Int) - 2 := by omega
      have hH : (0 : Int) < (v.height : Int) - 2 := by omega
      have hcastW : ((v.width - 2 : Nat) : Int) = (v.width : Int) - 2 := by omega
      have hcastH : ((v.height - 2 : Nat) : Int) = (v.height : Int) - 2 := by omega
      have hdW : ((v.width : Int) - 2) ∣ (v.period : Int) := by
        rw [← hcastW]
        exact Int.natCast_dvd_natCast.mpr (Nat.dvd_lcm_left _ _)
      have hdH : ((v.height : Int) - 2) ∣ (v.period : Int) := by
        rw [← hcastH]
        exact Int.natCast_dvd_natCast.mpr (Nat.dvd_lcm_right _ _)
      obtain ⟨kw, hkw⟩ := hdW
      obtain ⟨kh, hkh⟩ := hdH
      cases d with
      | RIGHT =>
        rw [iterate_conj_RIGHT, incLam_iterate _ hW _ x (by omega) (by omega)]
        have : (x - 1 + (v.period : Int)) % ((v.width : Int) - 2) = x - 1 := by
          rw [hkw, Int.add_mul_emod_self_left, Int.emod_eq_of_lt (by omega) (by omega)]
        rw [this, show 1 + (x - 1) = x from by ring]
      | LEFT =>
        rw [iterate_conj_LEFT, decLam_iterate _ hW _ x (by omega) (by omega)]
        have : (x - 1 - (v.period : Int)) % ((v.width : Int) - 2) = x - 1 := by
          rw [hkw, show x - 1 - ((v.width : Int) - 2) * kw =
              x - 1 + ((v.width : Int) - 2) * (-kw) from by ring,
            Int.add_mul_emod_self_left, Int.emod_eq_of_lt (by omega) (by omega)]
        rw [this, show 1 + (x - 1) = x from by ring]
      | BOTTOM =>
        rw [iterate_conj_BOTTOM, incLam_iterate _ hH _ y (by omega) (by omega)]
        have : (y - 1 + (v.period : Int)) % ((v.height : Int) - 2) = y - 1 := by
          rw [hkh, Int.add_mul_emod_self_left, Int.emod_eq_of_lt (by omega) (by omega)]
        rw [this, show 1 + (y - 1) = y from by ring]
      | TOP =>
        rw [iterate_conj_TOP, decLam_iterate _ hH _ y (by omega) (by omega)]
        have : (y - 1 - (v.period : Int)) % ((v.height : Int) - 2) = y - 1 := by
          rw [hkh, show y - 1 - ((v.height : Int) - 2) * kh =
              y - 1 + ((v.height : Int) - 2) * (-kh) from by ring,
            Int.add_mul_emod_self_left, Int.emod_eq_of_lt (by omega) (by omega)]
        rw [this, show 1 + (y - 1) = y from by ring]
      | STAY => exact Function.iterate_fixed rfl _

end Day24

namespace Day24

/-- Under the good-valley hypotheses a whole movement round is the
arithmetic move of every blizzard. -/
theorem stepRound_eq_map (v : Valley) (hw : 3 ≤ v.width) (hh : 3 ≤ v.height)
    (hen : v.entrance.y = 0) (hex : v.exit.y = (v.height : Int) - 1)
    (bs : List Blizzard) (hbs : ∀ b' ∈ bs, GoodBlizzard v b') :
    v.stepRound bs = bs.map (moveSpec v) := by
  unfold Valley.stepRound
  exact List.map_congr_left (fun b hb => move_eq_moveSpec v hw hh hen hex bs hbs b hb)

/-- `moveSpec` keeps a blizzard good. -/
theorem moveSpec_good (v : Valley) (b : Blizzard) (hb : GoodBlizzard v b) :
    GoodBlizzard v (moveSpec v b) := by
  obtain ⟨h1, h2, h3, h4, h5⟩ := hb
  cases b with
  | mk d pos =>
    cases pos with
    | mk x y =>
      simp only at h1 h2 h3 h4 h5
      cases d with
      | RIGHT =>
        unfold GoodBlizzard
        by_cases hc : x + 1 = (v.width : Int) - 1
        · rw [show moveSpec v ⟨.RIGHT, ⟨x, y⟩⟩ = ⟨.RIGHT, ⟨1, y⟩⟩ from by
            simp only [moveSpec]; rw [if_pos hc]]
          exact ⟨by dsimp only; omega, by dsimp only; omega, by dsimp only; omega,
            by dsimp only; omega, fun hcc => by rcases hcc with h | h <;> simp at h⟩
        · rw [show moveSpec v ⟨.RIGHT, ⟨x, y⟩⟩ = ⟨.RIGHT, ⟨x + 1, y⟩⟩ from by
            simp only [moveSpec]; rw [if_neg hc]]
          exact ⟨by dsimp only; omega, by dsimp only; omega, by dsimp only; omega,
            by dsimp only; omega, fun hcc => by rcases hcc with h | h <;> simp at h⟩
      | LEFT =>
        unfold GoodBlizzard
        by_cases hc : x - 1 = 0
        · rw [show moveSpec v ⟨.LEFT, ⟨x, y⟩⟩ = ⟨.LEFT, ⟨(v.width : Int) - 2, y⟩⟩ from by
            simp only [moveSpec]; rw [if_pos hc]]
          exact ⟨by dsimp only; omega, by dsimp only; omega, by dsimp only; omega,
            by dsimp only; omega, fun hcc => by rcases hcc with h | h <;> simp at h⟩
        · rw [show moveSpec v ⟨.LEFT, ⟨x, y⟩⟩ = ⟨.LEFT, ⟨x - 1, y⟩⟩ from by
            simp only [moveSpec]; rw [if_neg hc]]
          exact ⟨by dsimp only; omega, by dsimp only; omega, by dsimp only; omega,
            by dsimp only; omega, fun hcc => by rcases hcc with h | h <;> simp at h⟩
      | BOTTOM =>
        unfold GoodBlizzard
        by_cases hc : y + 1 = (v.height : Int) - 1
        · rw [show moveSpec v ⟨.BOTTOM, ⟨x, y⟩⟩ = ⟨.BOTTOM, ⟨x, 1⟩⟩ from by
            simp only [moveSpec]; rw [if_pos hc]]
          exact ⟨by dsimp only; omega, by dsimp only; omega, by dsimp only; omega,
            by dsimp only; omega, fun hcc => by dsimp only; exact h5 hcc⟩
        · rw [show moveSpec v ⟨.BOTTOM, ⟨x, y⟩⟩ = ⟨.BOTTOM, ⟨x, y + 1⟩⟩ from by
            simp only [moveSpec]; rw [if_neg hc]]
          exact ⟨by dsimp only; omega, by dsimp only; omega, by dsimp only; omega,
            by dsimp only; omega, fun hcc => by dsimp only; exact h5 hcc⟩
      | TOP =>
        unfold GoodBlizzard
        by_cases hc : y - 1 = 0
        · rw [show moveSpec v ⟨.TOP, ⟨x, y⟩⟩ = ⟨.TOP, ⟨x, (v.height : Int) - 2⟩⟩ from by
            simp only [moveSpec]; rw [if_pos hc]]
          exact ⟨by dsimp only; omega, by dsimp only; omega, by dsimp only; omega,
            by dsimp only; omega, fun hcc => by dsimp only; exact h5 hcc⟩
        · rw [show moveSpec v ⟨.TOP, ⟨x, y⟩⟩ = ⟨.TOP, ⟨x, y - 1⟩⟩ from by
            simp only [moveSpec]; rw [if_neg hc]]
          exact ⟨by dsimp only; omega, by dsimp only; omega, by dsimp only; omega,
            by dsimp only; omega, fun hcc => by dsimp only; exact h5 hcc⟩
      | STAY =>
        exact ⟨h1, h2, h3, h4, h5⟩

/-- Iterated movement rounds on a good list are iterated arithmetic
moves. -/
theorem stepRound_iterate (v : Valley) (hw : 3 ≤ v.width) (hh : 3 ≤ v.height)
    (hen : v.entrance.y = 0) (hex : v.exit.y = (v.height : Int) - 1) :
    ∀ (t : Nat) (bs : List Blizzard), (∀ b' ∈ bs, GoodBlizzard v b') →
      (v.stepRound)^[t] bs = bs.map ((moveSpec v)^[t]) := by
  intro t
  induction t with
  | zero => intro bs hbs; simp
  | succ t ih =>
    intro bs hbs
    rw [Function.iterate_succ_apply, stepRound_eq_map v hw hh hen hex bs hbs,
      ih (bs.map (moveSpec v)) ?_, List.map_map, Function.iterate_succ]
    intro b' hb'
    obtain ⟨b, hb, hbeq⟩ := List.mem_map.mp hb'
    rw [← hbeq]
    exact moveSpec_good v b (hbs b hb)

/-- The blizzard list returns to its initial value after one full period of
rounds. -/
theorem blizzardsAt_period (v : Valley) (hG : GoodValley v) :
    v.blizzardsAt v.period = v.blizzards := by
  obtain ⟨hw, hh, hen, hex, hbs⟩ := hG
  unfold Valley.blizzardsAt
  rw [stepRound_iterate v hw hh hen hex v.period v.blizzards hbs]
  have h1 : v.blizzards.map ((moveSpec v)^[v.period]) = v.blizzards.map id :=
    List.map_congr_left (fun b hb => moveSpec_period v b (hbs b hb))
  rw [h1, List.map_id]

/-- Pattern periodicity at the blizzard level: shifting time by the period
does not change the blizzard list. -/
theorem blizzardsAt_add_period (v : Valley) (hG : GoodValley v) (t : Nat) :
    v.blizzardsAt (t + v.period) = v.blizzardsAt t := by
  unfold Valley.blizzardsAt
  rw [Function.iterate_add_apply]
  have h1 : (v.stepRound)^[v.period] v.blizzards = v.blizzards := blizzardsAt_period v hG
  rw [h1]

/-- The blizzard list at any time equals the one at the time reduced modulo
the period. -/
theorem blizzardsAt_mod (v : Valley) (hG : GoodValley v) (t : Nat) :
    v.blizzardsAt (t % v.period) = v.blizzardsAt t := by
  have hsplit : t = t % v.period + v.period * (t / v.period) := (Nat.mod_add_div t v.period).symm
  conv_rhs => rw [hsplit]
  unfold Valley.blizzardsAt
  rw [Function.iterate_add_apply]
  have h1 : (v.stepRound)^[v.period * (t / v.period)] v.blizzards = v.blizzards := by
    rw [Function.iterate_mul]
    exact Function.iterate_fixed (blizzardsAt_period v hG) _
  rw [h1]

/-- The period is positive on a good valley. -/
theorem period_pos (v : Valley) (hG : GoodValley v) : 0 < v.period := by
  obtain ⟨hw, hh, -, -, -⟩ := hG
  exact Nat.lcm_pos (by omega) (by omega)

/-- The precomputed states list has exactly `period` entries. -/
theorem statesList_len (v : Valley) (hG : GoodValley v) :
    v.statesList.length = v.period := by
  have := period_pos v hG
  simp only [Valley.statesList, List.length_map, List.length_range, Valley.nStatesVar]
  unfold Valley.period at *
  omega

/-- Indexing the precomputed states by `t % period` yields the true pattern
at time `t`. -/
theorem statesList_getD (v : Valley) (hG : GoodValley v) (t : Nat) :
    v.statesList.getD (t % v.period) [] = v.plotOnGrid (v.blizzardsAt t) := by
  have hpos := period_pos v hG
  have hlt : t % v.period < v.nStatesVar + 1 := by
    have := Nat.mod_lt t hpos
    unfold Valley.nStatesVar Valley.period at *
    omega
  unfold Valley.statesList
  rw [List.getD_eq_getElem?_getD, List.getElem?_map, List.getElem?_range hlt]
  simp only [Option.map_some', Option.getD_some]
  rw [blizzardsAt_mod v hG t]

/-- C3 (amended): on every valley of the `from_text` shape whose blizzards
sit in the interior and whose vertical blizzards avoid the entrance and
exit columns, the blocked-cell pattern is periodic with period
`P = lcm(innerWidth, innerHeight)`: the engine's precomputed states list
has exactly the patterns of times `0 .. P-1`, the pattern at `t + P` equals
the pattern at `t` for every `t`, and the engine's `t mod P` indexing
returns exactly the pattern of time `t`. -/
theorem c3_pattern_periodicity (v : Valley) (hG : GoodValley v) :
    v.statesList.length = v.period ∧
      (∀ t, v.plotOnGrid (v.blizzardsAt (t + v.period)) = v.plotOnGrid (v.blizzardsAt t)) ∧
      (∀ t, v.statesList.getD (t % v.period) [] = v.plotOnGrid (v.blizzardsAt t)) :=
  ⟨statesList_len v hG,
    fun t => by rw [blizzardsAt_add_period v hG t],
    fun t => statesList_getD v hG t⟩

set_option maxHeartbeats 1000000 in
/-- C3 (counterexample): in the valley with an upward blizzard in the
entrance column, the blocked-cell pattern does not have the claimed period
`lcm(innerWidth, innerHeight) = lcm(3, 4) = 12`: the blizzard slips through
the entrance door cell and cycles with period 5, so the cell (y 3, x 1) is
blocked at time 0 but free at time 12. -/
theorem c3_counterexample :
    Nat.lcm (entranceColValley.width - 2) (entranceColValley.height - 2) = 12 ∧
      cellGet (entranceColValley.plotOnGrid (entranceColValley.blizzardsAt 12)) 3 1 ≠
        cellGet (entranceColValley.plotOnGrid (entranceColValley.blizzardsAt 0)) 3 1 := by
  constructor
  · decide
  · decide

set_option maxHeartbeats 2000000 in
/-- Witness for C3's amended theorem at the canonical example valley
(period 12): the states list has 12 entries, the pattern repeats after 12
steps starting anywhere (instantiated at 5), and the query for time 25 is
answered by index 25 mod 12. -/
theorem c3_witness :
    canonValley.statesList.length = canonValley.period ∧
      canonValley.plotOnGrid (canonValley.blizzardsAt (5 + canonValley.period)) =
        canonValley.plotOnGrid (canonValley.blizzardsAt 5) ∧
      canonValley.statesList.getD (25 % canonValley.period) [] =
        canonValley.plotOnGrid (canonValley.blizzardsAt 25) := by
  have hG : GoodValley canonValley := by
    unfold GoodValley GoodBlizzard
    decide
  obtain ⟨h1, h2, h3⟩ := c3_pattern_periodicity canonValley hG
  exact ⟨h1, h2 5, h3 25⟩

end Day24
